import Mathlib

/-!
Verification of the post publishing pipeline of the `sus-be` repository.

The development shallowly embeds two parts of the code base:

* `apps/posts/tasks.py` — the Celery task `process_and_publish_post` (the
  "JobStateMachine"): an initial locked check-and-mark section, a slow middle
  section (image generation, S3 upload, Instagram publish), and a final locked
  commit section, plus the `_fail_post` helper.  The `Post` row is modelled by
  `PostRow`.  The checked-in `apps/posts/models.py` is stale with respect to
  its own users: `tasks.py` and `apps/posts/admin.py` read and write the
  fields `scheduled_time`, `meta_api_error`, `meta_api_status` and the status
  `SCHEDULED` (also present in `api/models.py`), so the row model includes
  them.

* `apps/posts/services/image_generator.py` — emoji removal, message
  truncation, tag stripping, the dynamic font size, the rich text tag parser
  `_parse_rich_text` and the line wrapper `_wrap_rich_text`.  Pillow's
  `draw.textlength` measures rendered text in (float) pixels; it is modelled
  as an abstract nonnegative rational measure, and the float constants of the
  code (`0.5` bold buffer, the font-size slope) as exact rationals.

All recursive scanners are written with explicit fuel (structural recursion)
so that every definition evaluates by kernel reduction on concrete inputs.
-/

/-- Post status values used by `apps/posts/tasks.py` and `apps/posts/admin.py`
(`PENDING_MODERATION`/`AWAITING_PAYMENT` are collapsed into `pending`, which
the task treats like any non-terminal, non-scheduled status). -/
inductive PStatus where
  | pending
  | scheduled
  | processing
  | posted
  | failed
  deriving DecidableEq, Repr

/-- The fields of the `Post` row that `process_and_publish_post` reads or
writes.  Times are modelled as integers (seconds). -/
structure PostRow where
  status : PStatus
  instagram_media_id : Option String
  posted_at : Option Int
  meta_api_error : Option String
  meta_api_status : Option Int
  scheduled_time : Option Int
  deriving DecidableEq, Repr

/-- The dictionary returned by `publish_to_instagram`
(`apps/posts/services/instagram_uploader.py`): `success`, `media_id`,
`error`, `status_code`. -/
structure PubReturn where
  success : Bool
  media_id : Option String
  error : Option String
  status_code : Int
  deriving DecidableEq, Repr

/-- The scheduling check of the initial section (lines 31-39 of
`tasks.py`): a `SCHEDULED` post with no scheduled time, or whose scheduled
time is more than 30 seconds in the future, is skipped. -/
def schedEarlyAbort (now : Int) (row : PostRow) : Bool :=
  if row.status = .scheduled then
    match row.scheduled_time with
    | none => true
    | some t => decide (t - now > 30)
  else false

/-- Part 1 of `process_and_publish_post` (the locked initial section, lines
14-46 of `tasks.py`): idempotency check, scheduling check, mark `PROCESSING`.
Returns the updated row and whether the task proceeds. -/
def acquireUpdate (now : Int) (row : PostRow) : PostRow × Bool :=
  if row.status = .posted ∨ row.instagram_media_id ≠ none then (row, false)
  else if schedEarlyAbort now row then (row, false)
  else if row.status = .processing then (row, true)
  else ({ row with status := .processing }, true)

/-- The locked commit section of `process_and_publish_post` (lines 106-130):
re-read the row, discard the result if another worker already posted,
otherwise record the publish result. -/
def commitUpdate (now : Int) (r : PubReturn) (row : PostRow) : PostRow :=
  if row.status = .posted then row
  else if r.success then
    { row with
        status := .posted
        instagram_media_id := r.media_id
        posted_at := some now
        meta_api_error := none
        meta_api_status := some 200 }
  else
    { row with
        status := .failed
        meta_api_error := r.error
        meta_api_status := some r.status_code }

/-- The `_fail_post` helper (lines 136-145): mark the row `FAILED` with the
error message, unconditionally. -/
def fail_post (msg : String) (row : PostRow) : PostRow :=
  { row with status := .failed, meta_api_error := some msg }

/-- Behaviour of the external collaborators during one run of the middle
section.  `Except.error m` models a raised exception with text `m`;
`Except.ok none` models a collaborator returning `None`. -/
structure RunEnv where
  existingImage : Option String
  genImage : Except String (Option String)
  s3Upload : Except String (Option String)
  publish : Except String PubReturn

/-- Observable collaborator calls made by one run of the task. -/
inductive REvent where
  | genImage
  | s3Put
  | recordImage (url : String)
  | publish (imageUrl : String)
  | commit
  | failMark (msg : String)
  deriving DecidableEq, Repr

/-- The publish step and the commit (or exception) that follows it. -/
def publishPhase (now : Int) (env : RunEnv) (row : PostRow) (url : String)
    (evs : List REvent) : PostRow × List REvent :=
  match env.publish with
  | .error msg => (fail_post msg row, evs ++ [.publish url, .failMark msg])
  | .ok r => (commitUpdate now r row, evs ++ [.publish url, .commit])

/-- One sequential run of `process_and_publish_post` over a row, mirroring
the control flow of `tasks.py` lines 12-134: locked acquire, then (if no
image record exists) generate and upload, then publish and commit; any
exception in the middle section is routed to `_fail_post`. -/
def process_and_publish_post (now : Int) (env : RunEnv) (row : PostRow) : PostRow × List REvent :=
  let a := acquireUpdate now row
  if a.2 = false then (a.1, [])
  else
    match env.existingImage with
    | some url => publishPhase now env a.1 url []
    | none =>
      match env.genImage with
      | .error msg => (fail_post msg a.1, [.genImage, .failMark msg])
      | .ok none =>
          (fail_post "Image generation failed" a.1,
            [.genImage, .failMark "Image generation failed"])
      | .ok (some _) =>
        match env.s3Upload with
        | .error msg => (fail_post msg a.1, [.genImage, .s3Put, .failMark msg])
        | .ok none =>
            (fail_post "S3 upload failed" a.1,
              [.genImage, .s3Put, .failMark "S3 upload failed"])
        | .ok (some url) =>
            publishPhase now env a.1 url [.genImage, .s3Put, .recordImage url]

/-- The middle section of a run raises a Python exception with text `msg`:
either the publish call raises, or (when no image record exists) image
generation or the S3 upload raises. -/
def raisesWith (env : RunEnv) (msg : String) : Prop :=
  (env.existingImage ≠ none ∧ env.publish = .error msg)
  ∨ (env.existingImage = none ∧ env.genImage = .error msg)
  ∨ (env.existingImage = none ∧ (∃ b, env.genImage = .ok (some b))
      ∧ env.s3Upload = .error msg)
  ∨ (env.existingImage = none ∧ (∃ b, env.genImage = .ok (some b))
      ∧ (∃ u, env.s3Upload = .ok (some u)) ∧ env.publish = .error msg)

/-! ## Two racing executions of the same job

Under Celery's at-least-once delivery the same `post_id` may be processed by
two workers at once.  Each execution touches the shared row in exactly two
atomic critical sections (the `select_for_update` transactions): the acquire
section, and then either the commit section or `_fail_post`.  The middle
section performs no write to the `Post` row, so an execution is modelled by
its acquire time together with its final atomic action, and the race by an
arbitrary interleaving of the atomic sections of the two executions. -/

/-- The final atomic action of one execution: the commit section with the
publish result, or `_fail_post` on an exception (including the
"Image generation failed" and "S3 upload failed" paths). -/
inductive FinalAct where
  | commit (r : PubReturn)
  | fail (msg : String)
  deriving DecidableEq, Repr

/-- Parameters of one execution of the task for a given job. -/
structure RunSpec where
  now : Int
  act : FinalAct
  deriving DecidableEq, Repr

/-- Local control state of one execution: program counter (0 = before the
acquire section, 1 = between the sections, 2 = done) and whether the acquire
section decided to proceed. -/
structure RunCtl where
  pc : Nat
  proceed : Bool
  deriving DecidableEq, Repr

/-- Shared row plus the control state of the two executions. -/
structure Sys where
  row : PostRow
  c1 : RunCtl
  c2 : RunCtl
  deriving DecidableEq, Repr

/-- One atomic step of one execution.  Steps after completion are no-ops,
so schedules may be arbitrary boolean lists. -/
def stepRun (spec : RunSpec) (row : PostRow) (st : RunCtl) : PostRow × RunCtl :=
  if st.pc = 0 then
    let a := acquireUpdate spec.now row
    (a.1, ⟨1, a.2⟩)
  else if st.pc = 1 then
    if st.proceed then
      match spec.act with
      | .commit r => (commitUpdate spec.now r row, ⟨2, st.proceed⟩)
      | .fail m => (fail_post m row, ⟨2, st.proceed⟩)
    else (row, ⟨2, st.proceed⟩)
  else (row, st)

/-- One step of the interleaved system: `true` steps execution 1,
`false` steps execution 2. -/
def stepSys (s1 s2 : RunSpec) (sys : Sys) (b : Bool) : Sys :=
  if b then
    let p := stepRun s1 sys.row sys.c1
    ⟨p.1, p.2, sys.c2⟩
  else
    let p := stepRun s2 sys.row sys.c2
    ⟨p.1, sys.c1, p.2⟩

/-- Run a schedule, returning the final system state. -/
def execSys (s1 s2 : RunSpec) (sys : Sys) (sched : List Bool) : Sys :=
  sched.foldl (stepSys s1 s2) sys

/-- Run a schedule, returning the whole trace of system states. -/
def sysTrace (s1 s2 : RunSpec) (sys : Sys) : List Bool → List Sys
  | [] => [sys]
  | b :: bs => sys :: sysTrace s1 s2 (stepSys s1 s2 sys b) bs

/-- Initial system state: the shared row, both executions not yet started. -/
def initSys (row : PostRow) : Sys := ⟨row, ⟨0, false⟩, ⟨0, false⟩⟩

/-- Consecutive pairs of a list. -/
def listPairs {α : Type} (l : List α) : List (α × α) := l.zip l.tail

/-- Along a trace, the `instagram_media_id` only ever changes away from
`none`: in particular it is written at most once and, once set, is never
overwritten. -/
def mediaNeverOverwritten (tr : List Sys) : Prop :=
  ∀ p ∈ listPairs tr,
    p.1.row.instagram_media_id ≠ p.2.row.instagram_media_id →
      p.1.row.instagram_media_id = none

/-- Number of steps of a trace at which the row enters the `POSTED` state. -/
def postedEntries (tr : List Sys) : Nat :=
  (listPairs tr).countP
    (fun p => decide (p.1.row.status ≠ .posted ∧ p.2.row.status = .posted))

/-- Whether the final action is a commit of a successful publish result. -/
def successCommit : FinalAct → Bool
  | .commit r => r.success
  | .fail _ => false

/-- The execution is between its critical sections and will commit a
successful publish result. -/
def midDanger (spec : RunSpec) (c : RunCtl) : Prop :=
  c.pc = 1 ∧ c.proceed = true ∧ successCommit spec.act = true

/-- The execution has finished and its final action was a successful
commit. -/
def doneSuccess (spec : RunSpec) (c : RunCtl) : Prop :=
  c.pc = 2 ∧ c.proceed = true ∧ successCommit spec.act = true

/-- Inductive invariant of the interleaved system: a non-null media id was
written by a finished successful commit, and while a successful commit is
still pending the media id is unwritten or the row is already `POSTED`. -/
def SysInv (s1 s2 : RunSpec) (sys : Sys) : Prop :=
  (sys.row.instagram_media_id ≠ none →
    doneSuccess s1 sys.c1 ∨ doneSuccess s2 sys.c2)
  ∧ (midDanger s1 sys.c1 →
      sys.row.instagram_media_id = none ∨ sys.row.status = .posted)
  ∧ (midDanger s2 sys.c2 →
      sys.row.instagram_media_id = none ∨ sys.row.status = .posted)

/-- The system with the two executions' control states exchanged. -/
def swapSys (sys : Sys) : Sys := ⟨sys.row, sys.c2, sys.c1⟩

/-- An execution still able to commit a successful publish result counts
toward the budget of possible `POSTED` entries. -/
def budgetOf (spec : RunSpec) (c : RunCtl) : Nat :=
  if successCommit spec.act = true ∧ c.pc ≤ 1 then 1 else 0

/-- Remaining budget of possible `POSTED` entries of the whole system. -/
def budget (s1 s2 : RunSpec) (sys : Sys) : Nat :=
  budgetOf s1 sys.c1 + budgetOf s2 sys.c2

/-- The six full interleavings of the two atomic sections of each of the two
executions. -/
def completeScheds : List (List Bool) :=
  [[true, true, false, false], [true, false, true, false],
   [true, false, false, true], [false, true, true, false],
   [false, true, false, true], [false, false, true, true]]

/-! ## Image generator: input cleaning

Embeds `_remove_emojis`, the truncation in `_validate_and_set_inputs`,
`_strip_tags` and `_get_dynamic_font_size` from
`apps/posts/services/image_generator.py`.  Strings are lists of characters. -/

/-- Membership in the character class of the `emoji_pattern` regex of
`_remove_emojis`. -/
def isEmojiChar (c : Char) : Bool :=
  decide ((0x1F600 ≤ c.toNat ∧ c.toNat ≤ 0x1F64F)
    ∨ (0x1F300 ≤ c.toNat ∧ c.toNat ≤ 0x1F5FF)
    ∨ (0x1F680 ≤ c.toNat ∧ c.toNat ≤ 0x1F6FF)
    ∨ (0x1F700 ≤ c.toNat ∧ c.toNat ≤ 0x1FAFF)
    ∨ (0x2702 ≤ c.toNat ∧ c.toNat ≤ 0x27B0)
    ∨ (0x24C2 ≤ c.toNat ∧ c.toNat ≤ 0x1F251))

/-- `_remove_emojis`: delete every character of the emoji class, keeping all
whitespace and newlines (the pattern is substituted by the empty string). -/
def remove_emojis (cs : List Char) : List Char :=
  cs.filter (fun c => !isEmojiChar c)

/-- The message cleaning of `_validate_and_set_inputs` (lines 57-61): remove
emojis, then truncate to the first 2000 characters plus `"..."` when the
cleaned message is longer than 2000 characters. -/
def validateMessage (msg : List Char) : List Char :=
  let cleaned := remove_emojis msg
  if cleaned.length > 2000 then cleaned.take 2000 ++ "...".data else cleaned

/-- Character class `[^>]` of the `_strip_tags` regex. -/
def notGtChar (c : Char) : Bool := decide (c ≠ '>')

/-- Leftmost match of the regex `<[^>]+>` at the start position: `rest` is
the text after a `<`; returns the text after the matching `>` when at least
one non-`>` character is followed by a `>`. -/
def findGt (rest : List Char) : Option (List Char) :=
  if rest.takeWhile notGtChar = [] then none
  else
    match rest.dropWhile notGtChar with
    | '>' :: r => some r
    | _ => none

/-- Fueled scanner for `_strip_tags`, i.e. `re.sub(r'<[^>]+>', '', text)`:
at each `<` that starts a match of `<[^>]+>`, the whole match is removed.
The fuel only serves to make the recursion structural; it never runs out
when it starts at the length of the text. -/
def stripGo : Nat → List Char → List Char
  | 0, _ => []
  | _, [] => []
  | fuel + 1, c :: rest =>
    if c = '<' then
      match findGt rest with
      | some r => stripGo fuel r
      | none => c :: stripGo fuel rest
    else c :: stripGo fuel rest

/-- `_strip_tags`: remove every `<...>` span to get the visible text. -/
def strip_tags (cs : List Char) : List Char := stripGo cs.length cs

/-- The clean (tag-stripped) message the generator bases visible-length
logic on: `self.clean_message = self._strip_tags(self.message)`. -/
def cleanMessage (msg : List Char) : List Char := strip_tags (validateMessage msg)

/-- `_get_dynamic_font_size` as a function of `len(self.clean_message)`:
maximum size 48 below 200 visible characters, minimum size 34 above 750,
linear interpolation (truncated to an integer) in between.  The Python float
arithmetic is modelled by exact rationals; the interpolated value lies in
`[34, 48]`, where `int` truncation agrees with the floor. -/
def get_dynamic_font_size (textLen : Nat) : Nat :=
  if textLen < 200 then 48
  else if textLen > 750 then 34
  else Int.toNat ⌊(48 : ℚ) + ((34 : ℚ) - 48) / ((750 : ℚ) - 200) * ((textLen : ℚ) - 200)⌋

/-- The default font size the generator uses for a raw message: dynamic size
of the visible (emoji-removed, truncated, tag-stripped) length. -/
def defaultFontSize (msg : List Char) : Nat :=
  get_dynamic_font_size (cleanMessage msg).length

/-! ## Rich text parser

Embeds `_parse_rich_text` (lines 113-156).  The text is first split by the
capturing regex `(<b>|</b>|<c:#[0-9a-fA-F]+>|</c>|<s:\d+>|</s>)`; the loop
then dispatches on each part's *string* (`part.lower()` equality and
`startswith` tests), so a literal part that merely looks like a tag —
`"<B>"`, an unterminated `"<c:xyz"`, a `"<s:1x>"` with a bad numeral — is
consumed by a tag branch (pushed, popped, or silently swallowed) rather
than emitted as text.  A color value `part[3:-1]` is validated by
`_validate_color_format` (`#` followed by exactly 3 or 6 hex digits); an
invalid value leaves the style stack untouched.  Character classes
(`\d`, `int()` digits, `str.lower()`) are modelled over ASCII; the
round-trip theorem restricts its inputs accordingly. -/

/-- The six tag families of the split regex. -/
inductive RTag where
  | bOpen
  | bClose
  | cOpen (hex : List Char)
  | cClose
  | sOpen (ds : List Char)
  | sClose
  deriving DecidableEq, Repr

/-- Hex digit class `[0-9a-fA-F]`. -/
def isHexChar (c : Char) : Bool :=
  decide (('0' ≤ c ∧ c ≤ '9') ∨ ('a' ≤ c ∧ c ≤ 'f') ∨ ('A' ≤ c ∧ c ≤ 'F'))

/-- Match one alternative of the split regex at the start of the text;
returns the recognized tag and the number of characters consumed.  The `+`
quantifiers are greedy, and since neither hex digits nor decimal digits can
be `>`, greedy matching needs no backtracking. -/
def scanTag (cs : List Char) : Option (RTag × Nat) :=
  if cs.take 3 = "<b>".data then some (.bOpen, 3)
  else if cs.take 4 = "</b>".data then some (.bClose, 4)
  else if cs.take 4 = "</c>".data then some (.cClose, 4)
  else if cs.take 4 = "</s>".data then some (.sClose, 4)
  else if cs.take 4 = "<c:#".data then
    let hex := (cs.drop 4).takeWhile isHexChar
    if hex ≠ [] ∧ ((cs.drop 4).dropWhile isHexChar).head? = some '>' then
      some (.cOpen hex, 5 + hex.length)
    else none
  else if cs.take 3 = "<s:".data then
    let ds := (cs.drop 3).takeWhile Char.isDigit
    if ds ≠ [] ∧ ((cs.drop 3).dropWhile Char.isDigit).head? = some '>' then
      some (.sOpen ds, 4 + ds.length)
    else none
  else none

/-- Fueled version of `re.split` with the capturing tag pattern: the text is
cut into maximal literal-text chunks (`Sum.inl`) and recognized tags
(`Sum.inr`), in order.  Empty text parts, which the Python loop skips, are
never produced. -/
def tagSplitGo : Nat → List Char → List (Sum (List Char) RTag)
  | 0, _ => []
  | _, [] => []
  | fuel + 1, c :: rest =>
    match scanTag (c :: rest) with
    | some (t, n) => Sum.inr t :: tagSplitGo fuel ((c :: rest).drop n)
    | none =>
      match tagSplitGo fuel rest with
      | Sum.inl p :: ps => Sum.inl (c :: p) :: ps
      | ps => Sum.inl [c] :: ps

/-- Split a text into literal chunks and recognized tags. -/
def tagSplitParts (cs : List Char) : List (Sum (List Char) RTag) :=
  tagSplitGo cs.length cs

/-- One frame of the style stack: `{'bold': ..., 'color': ..., 'size': ...}`. -/
structure RStyle where
  bold : Bool
  color : List Char
  size : Nat
  deriving DecidableEq, Repr

/-- One styled segment produced by `_parse_rich_text` and consumed by
`_wrap_rich_text`. -/
structure Seg where
  text : List Char
  color : List Char
  size : Nat
  bold : Bool
  deriving DecidableEq, Repr

/-- `_validate_color_format` on the value `part[3:-1]` of a color tag, which
is `'#'` followed by the scanned hex digits: valid iff there are exactly 3
or 6 of them. -/
def validColorLen (hex : List Char) : Bool :=
  decide (hex.length = 3 ∨ hex.length = 6)

/-- Numeric value of a nonempty decimal digit string (`int(part[3:-1])`). -/
def natFromDigits (ds : List Char) : Nat :=
  ds.foldl (fun n c => 10 * n + (c.toNat - 48)) 0

/-- Effect of one recognized tag on the style stack (lines 124-147): opening
tags push a copy of the top with one field changed; closing tags pop unless
only the base frame is left; a color tag with an invalid value is dropped
without touching the stack. -/
def applyTag (t : RTag) (stack : List RStyle) : List RStyle :=
  match t with
  | .bOpen =>
    match stack with
    | top :: _ => { top with bold := true } :: stack
    | [] => stack
  | .cOpen hex =>
    match stack with
    | top :: _ =>
      if validColorLen hex then { top with color := '#' :: hex } :: stack else stack
    | [] => stack
  | .sOpen ds =>
    match stack with
    | top :: _ => { top with size := natFromDigits ds } :: stack
    | [] => stack
  | .bClose | .cClose | .sClose =>
    if stack.length > 1 then stack.tail else stack

/-- Python `str.lower()` on one character, modelled over ASCII (`A`-`Z` map
to `a`-`z`, everything else is fixed; the Unicode case table beyond ASCII is
outside the scope of the theorems, which restrict inputs to ASCII). -/
def asciiLower (c : Char) : Char :=
  if 'A' ≤ c ∧ c ≤ 'Z' then Char.ofNat (c.toNat + 32) else c

/-- Whitespace accepted (and stripped) by Python `int()` around a numeral:
space, tab, newline, carriage return, vertical tab, form feed (the ASCII
part of the Unicode whitespace Python accepts). -/
def isPySpace (c : Char) : Bool :=
  decide (c = ' ' ∨ c = '\t' ∨ c = '\n' ∨ c = '\r' ∨ c = '\x0b' ∨ c = '\x0c')

/-- Strip `isPySpace` characters from both ends. -/
def stripPy (s : List Char) : List Char :=
  ((s.dropWhile isPySpace).reverse.dropWhile isPySpace).reverse

/-- After a first digit, Python `int()` accepts further digits with single
underscores strictly between digits (`1_000` is legal, `1__0`, `1_` and
`_1` are not). -/
def digitsTail : List Char → Bool
  | [] => true
  | c :: rest =>
    if c = '_' then
      match rest with
      | [] => false
      | d :: rest2 => d.isDigit && digitsTail rest2
    else c.isDigit && digitsTail rest

/-- The unsigned-numeral grammar of Python `int()`: nonempty, a digit
first, then digits with single interior underscores. -/
def pyIntDigits : List Char → Bool
  | [] => false
  | c :: rest => c.isDigit && digitsTail rest

/-- Value of a legal Python numeral: interior underscores are ignored.
Together with `pyInt` below this models `int(s)` on a string — `none` when
it raises `ValueError`: surrounding whitespace is stripped, an optional
single `+`/`-` sign precedes the digits (digit classes modelled over
ASCII, per the file's scope). -/
def pyIntVal (ds : List Char) : Int :=
  (natFromDigits (ds.filter (fun c => decide (c ≠ '_'))) : Int)

/-- Dispatch of Python `int()` after stripping: an optional single sign,
then the numeral grammar. -/
def pyInt (s : List Char) : Option Int :=
  match stripPy s with
  | [] => none
  | c :: rest =>
    if c = '+' then
      if pyIntDigits rest then some (pyIntVal rest) else none
    else if c = '-' then
      if pyIntDigits rest then some (-pyIntVal rest) else none
    else
      if pyIntDigits (c :: rest) then some (pyIntVal (c :: rest)) else none

/-- `_validate_color_format(color)` (lines 158-159): `re.match` of the
anchored pattern `^#(?:[A-Fa-f0-9]\x7b3\x7d)\x7b1,2\x7d$` — a `#` followed by
exactly 3 or 6 hex digits.  Python's `$` also matches just before one final
newline, hence the second disjunct. -/
def colorCore : List Char → Bool
  | [] => false
  | c :: hx => decide (c = '#') && hx.all isHexChar && validColorLen hx

/-- Full color validation including the `$`-before-final-newline quirk of
the Python regex anchor. -/
def validate_color_format (color : List Char) : Bool :=
  colorCore color || (color.getLast? = some '\n' && colorCore color.dropLast)

/-- One iteration of the `_parse_rich_text` loop (lines 121-155) on a
literal (non-regex-matched) part string: the dispatch is on the *string*,
so a literal part that merely looks like a tag (`"<B>"`, `"<c:xyz"`,
`"<s:1"`, ...) is consumed by a tag branch — pushing a frame, popping, or
being silently swallowed — instead of being emitted as text.  Returns the
emitted segment, if any, and the updated style stack.  `part[3:-1]` is
`(part.drop 3).dropLast`, taken from the original (un-lowered) part exactly
as in the code; a pushed size is stored as `Nat` (`Int.toNat`), exact for
the nonnegative values — a negative size, reachable only from a malformed
literal such as `"<s:-5"`, is clamped because the embedding's font-size
type is `Nat` (no theorem covers such inputs). -/
def pyStep (part : List Char) (stack : List RStyle) : Option Seg × List RStyle :=
  if part.map asciiLower = "<b>".data then
    (none, match stack with
           | top :: _ => { top with bold := true } :: stack
           | [] => stack)
  else if part.map asciiLower = "</b>".data then
    (none, if stack.length > 1 then stack.tail else stack)
  else if (part.map asciiLower).take 3 = "<c:".data then
    (none, if validate_color_format ((part.drop 3).dropLast) then
             match stack with
             | top :: _ => { top with color := (part.drop 3).dropLast } :: stack
             | [] => stack
           else stack)
  else if part.map asciiLower = "</c>".data then
    (none, if stack.length > 1 then stack.tail else stack)
  else if (part.map asciiLower).take 3 = "<s:".data then
    (none, match pyInt ((part.drop 3).dropLast) with
           | some n =>
             match stack with
             | top :: _ => { top with size := n.toNat } :: stack
             | [] => stack
           | none => stack)
  else if part.map asciiLower = "</s>".data then
    (none, if stack.length > 1 then stack.tail else stack)
  else
    (some { text := part,
            color := (stack.headD ⟨false, [], 0⟩).color,
            size := (stack.headD ⟨false, [], 0⟩).size,
            bold := (stack.headD ⟨false, [], 0⟩).bold }, stack)

/-- Source text of a recognized tag token (what the regex matched). -/
def tagText : RTag → List Char
  | .bOpen => "<b>".data
  | .bClose => "</b>".data
  | .cOpen hex => "<c:#".data ++ hex ++ ">".data
  | .cClose => "</c>".data
  | .sOpen ds => "<s:".data ++ ds ++ ">".data
  | .sClose => "</s>".data

/-- The main loop of `_parse_rich_text` over the split parts: a
regex-matched tag updates the style stack by its token's `applyTag` (proved
equal to `pyStep` on the tag's source text in `applyTag_matches_loop`), and
a literal chunk goes through the same string dispatch `pyStep`, which
either emits a segment carrying the current top style or — for a
tag-lookalike literal — silently alters the stack or swallows the text. -/
def parseSteps : List (Sum (List Char) RTag) → List RStyle → List Seg
  | [], _ => []
  | Sum.inr t :: ps, stack => parseSteps ps (applyTag t stack)
  | Sum.inl txt :: ps, stack =>
    match pyStep txt stack with
    | (some sg, stack2) => sg :: parseSteps ps stack2
    | (none, stack2) => parseSteps ps stack2

/-- `_parse_rich_text(text, default_size, default_color)`. -/
def parse_rich_text (text : List Char) (defaultSize : Nat) (defaultColor : List Char) :
    List Seg :=
  parseSteps (tagSplitParts text) [⟨false, defaultColor, defaultSize⟩]

/-- Concatenation of the segment texts, ignoring style. -/
def joinTexts (segs : List Seg) : List Char := (segs.map Seg.text).flatten

/-- Fueled scanner for the hypothesis of the parse/strip correspondence:
every occurrence of `<[^>]+>` in the text is a grammar-matching tag. -/
def goodGo : Nat → List Char → Bool
  | 0, _ => true
  | _, [] => true
  | fuel + 1, c :: rest =>
    match scanTag (c :: rest) with
    | some (_, n) => goodGo fuel ((c :: rest).drop n)
    | none =>
      if c = '<' then (findGt rest).isNone && goodGo fuel rest
      else goodGo fuel rest

/-- The text contains only grammar-matching tags: wherever `_strip_tags`
would remove a `<...>` span, that span is a tag of the split grammar. -/
def goodTags (cs : List Char) : Bool := goodGo cs.length cs

/-- Fueled scanner for the stronger hypothesis of the parse/strip
correspondence: every occurrence of `<` begins a grammar-matching tag.
This excludes unterminated partial tags such as `"<c:xyz"`, which the
loop's `startswith` dispatch swallows instead of emitting as text. -/
def strictGo : Nat → List Char → Bool
  | 0, _ => true
  | _, [] => true
  | fuel + 1, c :: rest =>
    match scanTag (c :: rest) with
    | some (_, n) => strictGo fuel ((c :: rest).drop n)
    | none => if c = '<' then false else strictGo fuel rest

/-- Every `<` in the text begins a grammar-matching tag. -/
def strictTags (cs : List Char) : Bool := strictGo cs.length cs

/-! ## Line wrap engine

Embeds `_wrap_rich_text` (lines 161-216).  `draw.textlength(word, font)` is
an abstract measure `Nat → List Char → ℚ` (font size, word, width in
pixels); the bold buffer adds `len(word) * 0.5` pixels. -/

/-- Abstract text measure: font size and word to rendered width. -/
abbrev Meas := Nat → List Char → ℚ

/-- Width the wrapper accounts for one word rendered with the style of
segment `sty`: measured width plus the bold buffer `len * 0.5`. -/
def wordWidth (m : Meas) (sty : Seg) (w : List Char) : ℚ :=
  m sty.size w + (if sty.bold then (w.length : ℚ) / 2 else 0)

/-- Accounted width of a segment already placed on a line. -/
def segWidth (m : Meas) (sg : Seg) : ℚ := wordWidth m sg sg.text

/-- Accounted width of a whole line (sum of the per-segment widths, which is
exactly the `current_width` accumulator of the code). -/
def lineWidth (m : Meas) (line : List Seg) : ℚ := (line.map (segWidth m)).sum

/-- `re.split(r'(\n)', text)`: alternating (possibly empty) newline-free
parts and `"\n"` separator parts, kept in order. -/
def splitNL : List Char → List (List Char)
  | [] => [[]]
  | c :: rest =>
    if c = '\n' then [] :: ['\n'] :: splitNL rest
    else
      match splitNL rest with
      | p :: ps => (c :: p) :: ps
      | [] => [[c]]

/-- `part.split(' ')`: split on every single space, keeping empty words. -/
def splitSp : List Char → List (List Char)
  | [] => [[]]
  | c :: rest =>
    if c = ' ' then
      [] :: splitSp rest
    else
      match splitSp rest with
      | p :: ps => (c :: p) :: ps
      | [] => [[c]]

/-- Re-append the separating space to every word except the last
(`word_text = word + " " if i < len(words) - 1`). -/
def addSpaces : List (List Char) → List (List Char)
  | [] => []
  | [w] => [w]
  | w :: ws => (w ++ [' ']) :: addSpaces ws

/-- Wrapper loop state: committed lines, current line, accumulated width. -/
structure WrapSt where
  lines : List (List Seg)
  cur : List Seg
  curW : ℚ

/-- Process one word (lines 196-211): skip empty words; append to the
current line when the accumulated width stays within `max_width` (inclusive
boundary), otherwise flush the current line (if nonempty) and start a new
line with this word. -/
def pushWord (m : Meas) (maxW : ℚ) (sty : Seg) (st : WrapSt) (w : List Char) : WrapSt :=
  if w = [] then st
  else
    let ww := wordWidth m sty w
    if st.curW + ww ≤ maxW then
      ⟨st.lines, st.cur ++ [{ sty with text := w }], st.curW + ww⟩
    else
      ⟨st.lines ++ (if st.cur = [] then [] else [st.cur]),
        [{ sty with text := w }], ww⟩

/-- Process one `re.split(r'(\n)')` part (lines 177-211): a separator part
commits the current line unconditionally — even when empty — and starts a
fresh one; a text part is split into words and packed. -/
def doPart (m : Meas) (maxW : ℚ) (sty : Seg) (st : WrapSt) (part : List Char) : WrapSt :=
  if part = ['\n'] then ⟨st.lines ++ [st.cur], [], 0⟩
  else (addSpaces (splitSp part)).foldl (pushWord m maxW sty) st

/-- Process one styled segment. -/
def doSeg (m : Meas) (maxW : ℚ) (st : WrapSt) (sty : Seg) : WrapSt :=
  (splitNL sty.text).foldl (doPart m maxW sty) st

/-- `_wrap_rich_text(segments, max_width)`: wrap the parsed segments into
lines; the trailing current line is committed only when nonempty. -/
def wrap_rich_text (m : Meas) (segs : List Seg) (maxW : ℚ) : List (List Seg) :=
  let st := segs.foldl (doSeg m maxW) ⟨[], [], 0⟩
  st.lines ++ (if st.cur = [] then [] else [st.cur])

/-- Number of explicit newline characters carried by the segments. -/
def totalNewlines (segs : List Seg) : Nat :=
  (segs.map (fun sg => sg.text.count '\n')).sum

/-- A line respects the width budget, or is a single word that alone
exceeds the budget, kept whole on its own line. -/
def lineOk (m : Meas) (maxW : ℚ) (line : List Seg) : Prop :=
  lineWidth m line ≤ maxW ∨ ∃ sg, line = [sg] ∧ maxW < segWidth m sg

/-- Trimming in the sense of the specification sentence for the parser
round-trip claim (Python `str.strip()` on spaces/newlines/tabs); the image
generator itself never trims, this definition exists only to state that
sentence.  Modelled from the spec: "leading/trailing whitespace trimmed". -/
def specTrim (cs : List Char) : List Char :=
  (cs.dropWhile (fun c => c.isWhitespace)).reverse.dropWhile (fun c => c.isWhitespace)
    |>.reverse

/-- The literal text of a split-part list, tags contributing nothing. -/
def plainJoin (parts : List (Sum (List Char) RTag)) : List Char :=
  (parts.map (fun p => match p with | Sum.inl t => t | Sum.inr _ => [])).flatten

/-- Invariant of the wrapper loop: all committed lines respect the width
budget (or are lone oversized words), and the accumulator matches the
current line, which itself respects the budget likewise. -/
def stOk (m : Meas) (maxW : ℚ) (st : WrapSt) : Prop :=
  (∀ l ∈ st.lines, lineOk m maxW l)
  ∧ st.curW = lineWidth m st.cur
  ∧ lineOk m maxW st.cur

/-! ## Theorems.  First the single-run properties of the task. -/

/-- C6: a second invocation on a job whose first run reached `POSTED` aborts
at the idempotency guard before doing any work: the row — in particular
`instagram_media_id`, `status` and `posted_at` — is returned unchanged, and
no collaborator is called. -/
theorem idempotent_after_posted (now : Int) (env : RunEnv) (row : PostRow)
    (h : row.status = .posted) :
    process_and_publish_post now env row = (row, []) := by
  simp [process_and_publish_post, acquireUpdate, h]

/-- Witness for `idempotent_after_posted` at a concrete published row. -/
theorem idempotent_after_posted_witness :
    (⟨.posted, some "17841", some 5, none, some 200, none⟩ : PostRow).status = .posted
    ∧ process_and_publish_post 0
        ⟨none, .ok (some "img"), .ok (some "url"), .ok ⟨true, some "42", none, 200⟩⟩
        ⟨.posted, some "17841", some 5, none, some 200, none⟩
      = (⟨.posted, some "17841", some 5, none, some 200, none⟩, []) :=
  ⟨rfl, idempotent_after_posted 0 _ _ rfl⟩

/-- C5: when an image record from a prior partial run exists, a run never
generates an image, never uploads to S3, never records a new image, and
publishes (if at all) exactly the stored URL. -/
theorem artifact_reuse (now : Int) (env : RunEnv) (row : PostRow) (u : String)
    (h : env.existingImage = some u) :
    REvent.genImage ∉ (process_and_publish_post now env row).2
    ∧ REvent.s3Put ∉ (process_and_publish_post now env row).2
    ∧ (∀ v, REvent.recordImage v ∉ (process_and_publish_post now env row).2)
    ∧ ∀ v, REvent.publish v ∈ (process_and_publish_post now env row).2 → v = u := by
  unfold process_and_publish_post
  rcases hq : (acquireUpdate now row).2 with _ | _
  · simp [hq]
  · cases hp : env.publish <;> simp [h, hq, publishPhase, hp]

/-- Witness for `artifact_reuse` at a concrete job with a stored image. -/
theorem artifact_reuse_witness :
    (⟨some "https://s3/posts/a.png", .ok (some "img"), .ok (some "fresh"),
        .ok ⟨true, some "42", none, 200⟩⟩ : RunEnv).existingImage
      = some "https://s3/posts/a.png"
    ∧ REvent.genImage ∉
        (process_and_publish_post 0
          ⟨some "https://s3/posts/a.png", .ok (some "img"), .ok (some "fresh"),
            .ok ⟨true, some "42", none, 200⟩⟩
          ⟨.processing, none, none, none, none, none⟩).2 :=
  ⟨rfl, (artifact_reuse 0 _ _ _ rfl).1⟩

/-- C7: any exception raised in the middle section (generation, upload or
publish) is caught: the run marks the row `FAILED` with the raw error text
via `_fail_post`, commits nothing, and returns normally (the model is a
total function). -/
theorem middle_exception_failed (now : Int) (env : RunEnv) (row : PostRow) (msg : String)
    (hr : raisesWith env msg) (hp : (acquireUpdate now row).2 = true) :
    (process_and_publish_post now env row).1.status = .failed
    ∧ (process_and_publish_post now env row).1.meta_api_error = some msg
    ∧ REvent.commit ∉ (process_and_publish_post now env row).2 := by
  unfold process_and_publish_post
  rcases hr with ⟨hex, hpub⟩ | ⟨hex, hgen⟩ | ⟨hex, ⟨b, hgen⟩, hs3⟩
    | ⟨hex, ⟨b, hgen⟩, ⟨u2, hs3⟩, hpub⟩
  · rcases henv : env.existingImage with _ | u
    · exact absurd henv hex
    · simp [hp, henv, publishPhase, hpub, fail_post]
  · simp [hp, hex, hgen, fail_post]
  · simp [hp, hex, hgen, hs3, fail_post]
  · simp [hp, hex, hgen, hs3, publishPhase, hpub, fail_post]

/-- Witness for `middle_exception_failed`: the publish call raises on a job
with a stored artifact. -/
theorem middle_exception_failed_witness :
    raisesWith ⟨some "https://s3/posts/a.png", .ok none, .ok none,
        .error "HTTPSConnectionPool timeout"⟩ "HTTPSConnectionPool timeout"
    ∧ (acquireUpdate 0 ⟨.processing, none, none, none, none, none⟩).2 = true
    ∧ (process_and_publish_post 0
        ⟨some "https://s3/posts/a.png", .ok none, .ok none,
          .error "HTTPSConnectionPool timeout"⟩
        ⟨.processing, none, none, none, none, none⟩).1.status = .failed :=
  ⟨Or.inl ⟨by simp, rfl⟩, by decide,
    (middle_exception_failed 0 _ _ _ (Or.inl ⟨by simp, rfl⟩) (by decide)).1⟩

/-- C10: a message whose emoji-stripped form exceeds 2000 characters is
silently truncated to its first 2000 characters plus `"..."` (before tag
stripping and rendering); a message of at most 2000 characters is never
truncated (only its emoji are removed). -/
theorem message_truncation :
    (∀ msg : List Char, 2000 < (remove_emojis msg).length →
      validateMessage msg = (remove_emojis msg).take 2000 ++ "...".data)
    ∧ ∀ msg : List Char, msg.length ≤ 2000 → validateMessage msg = remove_emojis msg := by
  constructor
  · intro msg h
    simp only [validateMessage]
    rw [if_pos h]
  · intro msg h
    have hle : (remove_emojis msg).length ≤ msg.length :=
      List.length_filter_le _ _
    simp only [validateMessage]
    rw [if_neg (by omega)]

/-- Witness for `message_truncation` on a 2200-character message and on a
short message with an emoji. -/
theorem message_truncation_witness :
    (2000 < (remove_emojis (List.replicate 2200 'a')).length
      ∧ validateMessage (List.replicate 2200 'a')
          = (remove_emojis (List.replicate 2200 'a')).take 2000 ++ "...".data)
    ∧ ("hi😀".data.length ≤ 2000
      ∧ validateMessage "hi😀".data = remove_emojis "hi😀".data) := by
  have hrep : remove_emojis (List.replicate 2200 'a') = List.replicate 2200 'a' := by
    simp only [remove_emojis]
    rw [List.filter_eq_self.mpr]
    intro c hc
    rw [List.eq_of_mem_replicate hc]
    decide
  have hlen : 2000 < (remove_emojis (List.replicate 2200 'a')).length := by
    rw [hrep, List.length_replicate]
    omega
  refine ⟨⟨hlen, ?_⟩, ?_, ?_⟩
  · exact message_truncation.1 _ hlen
  · simp
  · exact message_truncation.2 _ (by simp)

/-- A text without `<` is unchanged by the tag-stripping scanner. -/
theorem stripGo_no_lt : ∀ (fuel : Nat) (cs : List Char),
    (∀ c ∈ cs, c ≠ '<') → cs.length ≤ fuel → stripGo fuel cs = cs := by
  intro fuel
  induction fuel with
  | zero =>
    intro cs _ hlen
    rw [List.length_eq_zero.mp (Nat.le_zero.mp hlen)]
    rfl
  | succ n ih =>
    intro cs hc hlen
    cases cs with
    | nil => rfl
    | cons c rest =>
      have hcne : ¬ c = '<' := hc c (List.mem_cons_self _ _)
      simp only [stripGo, if_neg hcne]
      rw [ih rest (fun x hx => hc x (List.mem_cons_of_mem _ hx))
        (by simp at hlen; omega)]

/-- Cleaning a message of `n ≤ 2000` letters `a` changes nothing. -/
theorem cleanMessage_replicate_a (n : Nat) (h : n ≤ 2000) :
    cleanMessage (List.replicate n 'a') = List.replicate n 'a' := by
  have hrem : remove_emojis (List.replicate n 'a') = List.replicate n 'a' := by
    simp only [remove_emojis]
    rw [List.filter_eq_self.mpr]
    intro c hc
    rw [List.eq_of_mem_replicate hc]
    decide
  have hval : validateMessage (List.replicate n 'a') = List.replicate n 'a' := by
    simp only [validateMessage, hrem]
    rw [if_neg (by simp; omega)]
  simp only [cleanMessage, hval, strip_tags]
  exact stripGo_no_lt _ _
    (fun c hc => by rw [List.eq_of_mem_replicate hc]; decide) le_rfl

/-- C9: the default font size is a piecewise-linear function of the visible
(tag-stripped) message length — maximum size 48 below 200 characters,
minimum size 34 above 750, linear interpolation (floor) in between; a
100-character message gets 48, a 1000-character message gets 34, a
475-character message gets 41, exactly midway between 34 and 48. -/
theorem dynamic_font_size_piecewise :
    (∀ msg : List Char, (cleanMessage msg).length < 200 → defaultFontSize msg = 48)
    ∧ (∀ msg : List Char, 750 < (cleanMessage msg).length → defaultFontSize msg = 34)
    ∧ (∀ msg : List Char, 200 ≤ (cleanMessage msg).length →
        (cleanMessage msg).length ≤ 750 →
        (defaultFontSize msg : ℤ)
          = ⌊(48 : ℚ) - 14 * (((cleanMessage msg).length : ℚ) - 200) / 550⌋)
    ∧ get_dynamic_font_size 100 = 48
    ∧ get_dynamic_font_size 1000 = 34
    ∧ get_dynamic_font_size 475 = 41
    ∧ 48 + 34 = 41 * 2 := by
  refine ⟨?_, ?_, ?_, by norm_num [get_dynamic_font_size],
    by norm_num [get_dynamic_font_size], ?_, by norm_num⟩
  · intro msg h
    simp only [defaultFontSize, get_dynamic_font_size]
    rw [if_pos h]
  · intro msg h
    simp only [defaultFontSize, get_dynamic_font_size]
    rw [if_neg (by omega), if_pos h]
  · intro msg h1 h2
    simp only [defaultFontSize, get_dynamic_font_size]
    rw [if_neg (by omega), if_neg (by omega)]
    have hcast : ((cleanMessage msg).length : ℚ) ≤ 750 := by exact_mod_cast h2
    have harg : (48 : ℚ) + ((34 : ℚ) - 48) / ((750 : ℚ) - 200)
          * (((cleanMessage msg).length : ℚ) - 200)
        = 48 - 14 * (((cleanMessage msg).length : ℚ) - 200) / 550 := by
      ring
    rw [harg]
    have hge : (0 : ℚ) ≤ 48 - 14 * (((cleanMessage msg).length : ℚ) - 200) / 550 := by
      have h14 : 14 * (((cleanMessage msg).length : ℚ) - 200) / 550
          = (14 / 550) * (((cleanMessage msg).length : ℚ) - 200) := by ring
      rw [h14]
      nlinarith [hcast]
    rw [Int.toNat_of_nonneg (Int.floor_nonneg.mpr hge)]
  · norm_num [get_dynamic_font_size]
    decide

/-- Witness for `dynamic_font_size_piecewise` at messages of visible length
475 and 100. -/
theorem dynamic_font_size_witness :
    (200 ≤ (cleanMessage (List.replicate 475 'a')).length
      ∧ (cleanMessage (List.replicate 475 'a')).length ≤ 750
      ∧ (defaultFontSize (List.replicate 475 'a') : ℤ)
          = ⌊(48 : ℚ)
              - 14 * (((cleanMessage (List.replicate 475 'a')).length : ℚ) - 200) / 550⌋)
    ∧ (cleanMessage (List.replicate 100 'a')).length < 200
    ∧ defaultFontSize (List.replicate 100 'a') = 48 := by
  have h475 := cleanMessage_replicate_a 475 (by omega)
  have h100 := cleanMessage_replicate_a 100 (by omega)
  have hl475 : (cleanMessage (List.replicate 475 'a')).length = 475 := by
    rw [h475, List.length_replicate]
  have hl100 : (cleanMessage (List.replicate 100 'a')).length = 100 := by
    rw [h100, List.length_replicate]
  refine ⟨⟨by omega, by omega, ?_⟩, by omega, ?_⟩
  · exact dynamic_font_size_piecewise.2.2.1 _ (by omega) (by omega)
  · exact dynamic_font_size_piecewise.1 _ (by omega)

/-! ## Wrap engine lemmas -/

/-- Packing one word never removes a committed line. -/
theorem pushWord_lines_mono (m : Meas) (maxW : ℚ) (sty : Seg) (st : WrapSt)
    (w : List Char) : st.lines.length ≤ (pushWord m maxW sty st w).lines.length := by
  unfold pushWord
  by_cases hw : w = []
  · simp [hw]
  · simp only [if_neg hw]
    by_cases hfit : st.curW + wordWidth m sty w ≤ maxW
    · simp [hfit]
    · simp only [if_neg hfit]
      split <;> simp

/-- Packing a word list never removes a committed line. -/
theorem foldl_pushWord_lines_mono (m : Meas) (maxW : ℚ) (sty : Seg) :
    ∀ (ws : List (List Char)) (st : WrapSt),
      st.lines.length ≤ ((ws.foldl (pushWord m maxW sty) st)).lines.length := by
  intro ws
  induction ws with
  | nil => intro st; exact le_refl _
  | cons w ws ih =>
    intro st
    exact le_trans (pushWord_lines_mono m maxW sty st w) (ih _)

/-- A separator part commits exactly one more line; a text part never
removes one. -/
theorem doPart_lines (m : Meas) (maxW : ℚ) (sty : Seg) (st : WrapSt)
    (part : List Char) :
    st.lines.length + (if part = ['\n'] then 1 else 0)
      ≤ (doPart m maxW sty st part).lines.length := by
  unfold doPart
  by_cases h : part = ['\n']
  · simp [h]
  · simpa [h] using foldl_pushWord_lines_mono m maxW sty (addSpaces (splitSp part)) st

/-- Processing a part list commits at least one line per separator part. -/
theorem foldl_doPart_lines (m : Meas) (maxW : ℚ) (sty : Seg) :
    ∀ (parts : List (List Char)) (st : WrapSt),
      st.lines.length + parts.countP (fun q => decide (q = ['\n']))
        ≤ ((parts.foldl (doPart m maxW sty) st)).lines.length := by
  intro parts
  induction parts with
  | nil => intro st; simp
  | cons p ps ih =>
    intro st
    have h1 := doPart_lines m maxW sty st p
    have h2 := ih (doPart m maxW sty st p)
    rw [List.foldl_cons, List.countP_cons]
    by_cases hp : p = ['\n']
    · subst hp
      simp only [if_pos rfl] at h1
      simp only [decide_eq_true_eq, if_pos rfl]
      omega
    · simp only [if_neg hp] at h1
      simp only [decide_eq_true_eq, if_neg hp]
      omega

/-- The separator parts of `splitNL` are in bijection with the newline
characters, and the first part is newline-free. -/
theorem splitNL_spec : ∀ cs : List Char, ∃ p ps, splitNL cs = p :: ps
    ∧ '\n' ∉ p
    ∧ (p :: ps).countP (fun q => decide (q = ['\n'])) = cs.count '\n' := by
  intro cs
  induction cs with
  | nil => exact ⟨[], [], rfl, by simp, by simp⟩
  | cons c rest ih =>
    obtain ⟨p, ps, hsplit, hnl, hcount⟩ := ih
    by_cases hc : c = '\n'
    · subst hc
      refine ⟨[], ['\n'] :: p :: ps, ?_, by simp, ?_⟩
      · simp [splitNL, hsplit]
      · rw [List.countP_cons, List.countP_cons, hcount]
        simp [List.count_cons]
    · refine ⟨c :: p, ps, ?_, ?_, ?_⟩
      · simp [splitNL, hc, hsplit]
      · intro hmem
        rcases List.mem_cons.mp hmem with h | h
        · exact hc h.symm
        · exact hnl h
      · have hp1 : ¬ (c :: p = ['\n']) := by
          intro h
          have h2 := List.head_eq_of_cons_eq h
          exact hc h2
        have hp2 : ¬ (p = ['\n']) := by
          intro h
          exact hnl (h ▸ List.mem_cons_self '\n' [])
        rw [List.countP_cons] at hcount ⊢
        have hcc : List.count '\n' (c :: rest) = List.count '\n' rest := by
          simp [List.count_cons]
          intro h
          exact hc h
        rw [hcc]
        simp only [decide_eq_true_eq, if_neg hp1] at hcount ⊢
        simp only [if_neg hp2] at hcount
        omega

/-- Processing one segment commits at least one line per explicit newline in
its text. -/
theorem doSeg_lines (m : Meas) (maxW : ℚ) (st : WrapSt) (sty : Seg) :
    st.lines.length + sty.text.count '\n' ≤ (doSeg m maxW st sty).lines.length := by
  obtain ⟨p, ps, hsplit, _, hcount⟩ := splitNL_spec sty.text
  have h := foldl_doPart_lines m maxW sty (splitNL sty.text) st
  rw [hsplit, hcount] at h
  simpa [doSeg, hsplit] using h

/-- Processing a segment list commits at least one line per explicit
newline. -/
theorem foldl_doSeg_lines (m : Meas) (maxW : ℚ) :
    ∀ (segs : List Seg) (st : WrapSt),
      st.lines.length + totalNewlines segs
        ≤ ((segs.foldl (doSeg m maxW) st)).lines.length := by
  intro segs
  induction segs with
  | nil => intro st; simp [totalNewlines]
  | cons sg segs ih =>
    intro st
    have h1 := doSeg_lines m maxW st sg
    have h2 := ih (doSeg m maxW st sg)
    have ht : totalNewlines (sg :: segs) = sg.text.count '\n' + totalNewlines segs := by
      simp [totalNewlines]
    rw [List.foldl_cons, ht]
    omega

/-- C8: every explicit newline forces a committed line boundary — the output
has at least one line per newline character, empty lines included — and on
the concrete input `"A\n\nB"` with ample width the wrapper returns the three
lines `["A"]`, `[]`, `["B"]`, preserving the blank line between the two
consecutive newlines as a zero-segment line. -/
theorem newline_line_boundaries :
    (∀ (m : Meas) (segs : List Seg) (maxW : ℚ),
        totalNewlines segs ≤ (wrap_rich_text m segs maxW).length)
    ∧ wrap_rich_text (fun _ w => (w.length : ℚ))
        [⟨"A\n\nB".data, "#FFFFFF".data, 48, false⟩] 800
      = [[⟨"A".data, "#FFFFFF".data, 48, false⟩], [],
         [⟨"B".data, "#FFFFFF".data, 48, false⟩]] := by
  constructor
  · intro m segs maxW
    have h := foldl_doSeg_lines m maxW segs ⟨[], [], 0⟩
    simp only [wrap_rich_text, List.length_append]
    simp at h
    omega
  · simp [wrap_rich_text, doSeg, doPart, pushWord, splitNL, splitSp, addSpaces, wordWidth,
      String.data]

/-- The placed segment copies only the style of `sty`, so its accounted
width is the accounted word width. -/
theorem segWidth_mk (m : Meas) (sty : Seg) (w : List Char) :
    segWidth m { sty with text := w } = wordWidth m sty w := rfl

/-- Width of a line extended by one segment. -/
theorem lineWidth_append_one (m : Meas) (l : List Seg) (sg : Seg) :
    lineWidth m (l ++ [sg]) = lineWidth m l + segWidth m sg := by
  simp [lineWidth]

/-- Packing one word preserves the wrapper invariant. -/
theorem pushWord_stOk (m : Meas) (maxW : ℚ) (sty : Seg) (st : WrapSt)
    (w : List Char) (hst : stOk m maxW st) :
    stOk m maxW (pushWord m maxW sty st w) := by
  obtain ⟨hl, hw, hc⟩ := hst
  unfold pushWord
  by_cases hwe : w = []
  · simpa [hwe] using ⟨hl, hw, hc⟩
  · simp only [if_neg hwe]
    by_cases hfit : st.curW + wordWidth m sty w ≤ maxW
    · simp only [if_pos hfit]
      refine ⟨hl, ?_, Or.inl ?_⟩
      · rw [lineWidth_append_one, segWidth_mk, hw]
      · rw [lineWidth_append_one, segWidth_mk, ← hw]
        exact hfit
    · simp only [if_neg hfit]
      refine ⟨?_, ?_, ?_⟩
      · intro l hlm
        rcases List.mem_append.mp hlm with h | h
        · exact hl l h
        · by_cases hce : st.cur = []
          · rw [if_pos hce] at h
            exact absurd h (List.not_mem_nil l)
          · rw [if_neg hce] at h
            rw [List.mem_singleton.mp h]
            exact hc
      · rw [show lineWidth m [{ sty with text := w }]
            = segWidth m { sty with text := w } by simp [lineWidth], segWidth_mk]
      · by_cases hww : wordWidth m sty w ≤ maxW
        · refine Or.inl ?_
          rw [show lineWidth m [{ sty with text := w }]
              = segWidth m { sty with text := w } by simp [lineWidth], segWidth_mk]
          exact hww
        · exact Or.inr ⟨_, rfl, by rw [segWidth_mk]; exact lt_of_not_le hww⟩

/-- Packing a word list preserves the wrapper invariant. -/
theorem foldl_pushWord_stOk (m : Meas) (maxW : ℚ) (sty : Seg) :
    ∀ (ws : List (List Char)) (st : WrapSt), stOk m maxW st →
      stOk m maxW (ws.foldl (pushWord m maxW sty) st) := by
  intro ws
  induction ws with
  | nil => intro st hst; exact hst
  | cons w ws ih =>
    intro st hst
    exact ih _ (pushWord_stOk m maxW sty st w hst)

/-- Processing one split part preserves the wrapper invariant. -/
theorem doPart_stOk (m : Meas) (maxW : ℚ) (sty : Seg) (st : WrapSt)
    (part : List Char) (h0 : 0 ≤ maxW)
    (hst : stOk m maxW st) : stOk m maxW (doPart m maxW sty st part) := by
  obtain ⟨hl, hw, hc⟩ := hst
  unfold doPart
  by_cases hp : part = ['\n']
  · simp only [if_pos hp]
    refine ⟨?_, by simp [lineWidth], Or.inl (by simpa [lineWidth] using h0)⟩
    intro l hlm
    rcases List.mem_append.mp hlm with h | h
    · exact hl l h
    · rw [List.mem_singleton.mp h]
      exact hc
  · simp only [if_neg hp]
    exact foldl_pushWord_stOk m maxW sty _ st ⟨hl, hw, hc⟩

/-- Processing one segment preserves the wrapper invariant. -/
theorem doSeg_stOk (m : Meas) (maxW : ℚ) (st : WrapSt) (sty : Seg)
    (h0 : 0 ≤ maxW) (hst : stOk m maxW st) :
    stOk m maxW (doSeg m maxW st sty) := by
  unfold doSeg
  generalize splitNL sty.text = parts
  induction parts generalizing st with
  | nil => exact hst
  | cons p ps ih =>
    exact ih _ (doPart_stOk m maxW sty st p h0 hst)

/-- C2 (amended): for a nonnegative measure and width budget, every line
the wrapper emits either fits the budget or is a single word that alone
exceeds the budget, kept whole on its own line (the code has no
character-by-character fallback). -/
theorem foldl_doSeg_stOk (m : Meas) (maxW : ℚ)
    (h0 : 0 ≤ maxW) :
    ∀ (segs : List Seg) (st : WrapSt), stOk m maxW st →
      stOk m maxW (segs.foldl (doSeg m maxW) st) := by
  intro segs
  induction segs with
  | nil => intro st hst; exact hst
  | cons sg segs ih =>
    intro st hst
    exact ih _ (doSeg_stOk m maxW st sg h0 hst)

/-- C2 (amended): for a nonnegative measure and width budget, every line
the wrapper emits either fits the budget or is a single word that alone
exceeds the budget, kept whole on its own line (the code has no
character-by-character fallback). -/
theorem wrap_width_bound (m : Meas) (segs : List Seg) (maxW : ℚ)
    (h0 : 0 ≤ maxW) :
    ∀ line ∈ wrap_rich_text m segs maxW, lineOk m maxW line := by
  have hinit : stOk m maxW ⟨[], [], 0⟩ :=
    ⟨fun l h => absurd h (List.not_mem_nil l), by simp [lineWidth],
      Or.inl (by simpa [lineWidth] using h0)⟩
  obtain ⟨hl, _, hc⟩ := foldl_doSeg_stOk m maxW h0 segs _ hinit
  intro line hline
  unfold wrap_rich_text at hline
  rcases List.mem_append.mp hline with h | h
  · exact hl _ h
  · by_cases hce : (segs.foldl (doSeg m maxW) ⟨[], [], 0⟩).cur = []
    · rw [if_pos hce] at h
      exact absurd h (List.not_mem_nil line)
    · rw [if_neg hce] at h
      rw [List.mem_singleton.mp h]
      exact hc

/-- Counterexample to C2 as stated: a six-character word of accounted width
60 on an empty line with budget 25 is emitted whole as a single one-segment
line of width 60 — it is not packed character by character. -/
theorem wrap_overwide_word_kept_whole :
    wrap_rich_text (fun sz w => (sz : ℚ) * w.length)
        [⟨"abcdef".data, "#FFFFFF".data, 10, false⟩] 25
      = [[⟨"abcdef".data, "#FFFFFF".data, 10, false⟩]]
    ∧ (25 : ℚ) < segWidth (fun sz w => (sz : ℚ) * w.length)
        ⟨"abcdef".data, "#FFFFFF".data, 10, false⟩ := by
  constructor
  · simp [wrap_rich_text, doSeg, doPart, pushWord, splitNL, splitSp, addSpaces,
      wordWidth, String.data]
  · simp [segWidth, wordWidth, String.data]
    norm_num

/-! ## Parser / strip-tags correspondence -/

/-- A hex digit is not `>`. -/
theorem isHexChar_ne_gt {c : Char} (h : isHexChar c = true) : c ≠ '>' := by
  intro hc
  subst hc
  exact absurd h (by decide)

/-- A decimal digit is not `>`. -/
theorem isDigit_ne_gt {c : Char} (h : c.isDigit = true) : c ≠ '>' := by
  intro hc
  subst hc
  exact absurd h (by decide)

/-- The `[^>]+` scan over `pre ++ '>' :: tail` with `pre` free of `>`
takes exactly `pre` and leaves `'>' :: tail`. -/
theorem takeWhile_notGt_of_front :
    ∀ (pre tail : List Char), (∀ x ∈ pre, x ≠ '>') →
      (pre ++ '>' :: tail).takeWhile notGtChar = pre
        ∧ (pre ++ '>' :: tail).dropWhile notGtChar = '>' :: tail := by
  intro pre
  induction pre with
  | nil =>
    intro tail _
    constructor <;> simp [List.takeWhile_cons, List.dropWhile_cons, notGtChar]
  | cons c pre ih =>
    intro tail h
    have hc : c ≠ '>' := h c (List.mem_cons_self _ _)
    obtain ⟨h1, h2⟩ := ih tail (fun x hx => h x (List.mem_cons_of_mem _ hx))
    constructor
    · simp [List.takeWhile_cons, notGtChar, hc, h1]
    · simp [List.dropWhile_cons, notGtChar, hc, h2]

/-- `findGt` on a text of the form `pre ++ '>' :: tail`. -/
theorem findGt_of_front (pre tail : List Char) (hp : ∀ x ∈ pre, x ≠ '>')
    (hne : pre ≠ []) : findGt (pre ++ '>' :: tail) = some tail := by
  obtain ⟨h1, h2⟩ := takeWhile_notGt_of_front pre tail hp
  unfold findGt
  rw [h1, h2, if_neg hne]
  rfl

/-- Dropping the matched span of `<[^>]+>` (minus the opening `<`). -/
theorem drop_pre_gt : ∀ (pre tail : List Char),
    (pre ++ '>' :: tail).drop (pre.length + 1) = tail := by
  intro pre
  induction pre with
  | nil => intro tail; simp
  | cons c pre ih => intro tail; simpa using ih tail

/-- A successful `findGt` strictly shrinks the text. -/
theorem findGt_some_length {rest r : List Char} (h : findGt rest = some r) :
    r.length < rest.length := by
  unfold findGt at h
  by_cases ht : rest.takeWhile notGtChar = []
  · rw [if_pos ht] at h
    exact absurd h (by simp)
  · rw [if_neg ht] at h
    have hlen := congrArg List.length (List.takeWhile_append_dropWhile notGtChar rest)
    rw [List.length_append] at hlen
    have htl : 1 ≤ (rest.takeWhile notGtChar).length := by
      cases hcase : rest.takeWhile notGtChar with
      | nil => exact absurd hcase ht
      | cons a l => simp
    split at h
    · rename_i r' heq
      have hr : r = r' := by
        injection h with h'
        exact h'.symm
      have hdl := congrArg List.length heq
      simp at hdl
      subst hr
      omega
    · exact absurd h (by simp)

/-- Splitting a list at a known `take` prefix. -/
theorem eq_take_concat {cs pat : List Char} {k : Nat}
    (h : cs.take k = pat) : cs = pat ++ cs.drop k := by
  conv_lhs => rw [← List.take_append_drop k cs]
  rw [h]

/-- Everything the main induction needs from a successful tag scan: the
scan starts at a `<`, consumes at least one and at most all characters, and
consumes exactly the span `<[^>]+>` that `_strip_tags` removes there. -/
theorem scanTag_spec {c : Char} {rest : List Char} {t : RTag} {n : Nat}
    (h : scanTag (c :: rest) = some (t, n)) :
    c = '<' ∧ 1 ≤ n ∧ n ≤ (c :: rest).length
      ∧ findGt rest = some ((c :: rest).drop n) := by
  have haux : ∀ (pre tail : List Char), rest = pre ++ '>' :: tail →
      (∀ x ∈ pre, x ≠ '>') → pre ≠ [] → n = pre.length + 2 →
      1 ≤ n ∧ n ≤ (c :: rest).length ∧ findGt rest = some ((c :: rest).drop n) := by
    intro pre tail hre hp hne hn
    subst hre
    subst hn
    refine ⟨by omega, ?_, ?_⟩
    · simp only [List.length_append, List.length_cons]
      omega
    · rw [findGt_of_front pre tail hp hne]
      congr 1
      have h2 : pre.length + 2 = (pre.length + 1) + 1 := rfl
      rw [h2, List.drop_succ_cons]
      exact (drop_pre_gt pre tail).symm
  unfold scanTag at h
  simp only [] at h
  split_ifs at h with h1 h2 h3 h4 h5 hc5 h6 hc6
  · -- tag <b>
    have hsplit := eq_take_concat h1
    injection hsplit with hc hrest
    simp only [Option.some.injEq, Prod.mk.injEq] at h
    obtain ⟨-, hn⟩ := h
    refine ⟨hc, haux ['b'] ((c :: rest).drop 3) (by simpa using hrest)
      (by decide) (by decide) (by simp only [List.length_cons, List.length_nil]; omega)⟩
  · -- tag </b>
    have hsplit := eq_take_concat h2
    injection hsplit with hc hrest
    simp only [Option.some.injEq, Prod.mk.injEq] at h
    obtain ⟨-, hn⟩ := h
    refine ⟨hc, haux ['/', 'b'] ((c :: rest).drop 4) (by simpa using hrest)
      (by decide) (by decide) (by simp only [List.length_cons, List.length_nil]; omega)⟩
  · -- tag </c>
    have hsplit := eq_take_concat h3
    injection hsplit with hc hrest
    simp only [Option.some.injEq, Prod.mk.injEq] at h
    obtain ⟨-, hn⟩ := h
    refine ⟨hc, haux ['/', 'c'] ((c :: rest).drop 4) (by simpa using hrest)
      (by decide) (by decide) (by simp only [List.length_cons, List.length_nil]; omega)⟩
  · -- tag </s>
    have hsplit := eq_take_concat h4
    injection hsplit with hc hrest
    simp only [Option.some.injEq, Prod.mk.injEq] at h
    obtain ⟨-, hn⟩ := h
    refine ⟨hc, haux ['/', 's'] ((c :: rest).drop 4) (by simpa using hrest)
      (by decide) (by decide) (by simp only [List.length_cons, List.length_nil]; omega)⟩
  · -- tag <c:#hex>
    have hsplit := eq_take_concat h5
    injection hsplit with hc hrest
    obtain ⟨hhex, hhead⟩ := hc5
    simp only [Option.some.injEq, Prod.mk.injEq] at h
    obtain ⟨-, hn⟩ := h
    cases hdw : ((c :: rest).drop 4).dropWhile isHexChar with
    | nil => rw [hdw] at hhead; exact absurd hhead (by simp)
    | cons a tl =>
      rw [hdw] at hhead
      have ha : a = '>' := by simpa using hhead
      subst ha
      have hr2 : (c :: rest).drop 4
          = ((c :: rest).drop 4).takeWhile isHexChar ++ '>' :: tl := by
        conv_lhs => rw [← List.takeWhile_append_dropWhile isHexChar ((c :: rest).drop 4)]
        rw [hdw]
      have hre : rest = ('c' :: ':' :: '#' :: ((c :: rest).drop 4).takeWhile isHexChar)
          ++ '>' :: tl := by
        conv_lhs => rw [hrest, hr2]
        simp
      refine ⟨hc, haux _ tl hre ?_ (by simp) ?_⟩
      · intro x hx
        rcases List.mem_cons.mp hx with hx | hx
        · subst hx; decide
        rcases List.mem_cons.mp hx with hx | hx
        · subst hx; decide
        rcases List.mem_cons.mp hx with hx | hx
        · subst hx; decide
        · exact isHexChar_ne_gt (List.mem_takeWhile_imp hx)
      · simp only [List.length_cons]
        omega
  · -- tag <s:digits>
    have hsplit := eq_take_concat h6
    injection hsplit with hc hrest
    obtain ⟨hds, hhead⟩ := hc6
    simp only [Option.some.injEq, Prod.mk.injEq] at h
    obtain ⟨-, hn⟩ := h
    cases hdw : ((c :: rest).drop 3).dropWhile Char.isDigit with
    | nil => rw [hdw] at hhead; exact absurd hhead (by simp)
    | cons a tl =>
      rw [hdw] at hhead
      have ha : a = '>' := by simpa using hhead
      subst ha
      have hr2 : (c :: rest).drop 3
          = ((c :: rest).drop 3).takeWhile Char.isDigit ++ '>' :: tl := by
        conv_lhs => rw [← List.takeWhile_append_dropWhile Char.isDigit ((c :: rest).drop 3)]
        rw [hdw]
      have hre : rest = ('s' :: ':' :: ((c :: rest).drop 3).takeWhile Char.isDigit)
          ++ '>' :: tl := by
        conv_lhs => rw [hrest, hr2]
        simp
      refine ⟨hc, haux _ tl hre ?_ (by simp) ?_⟩
      · intro x hx
        rcases List.mem_cons.mp hx with hx | hx
        · subst hx; decide
        rcases List.mem_cons.mp hx with hx | hx
        · subst hx; decide
        · exact isDigit_ne_gt (List.mem_takeWhile_imp hx)
      · simp only [List.length_cons]
        omega

/-- Tags contribute no text to the literal join. -/
theorem plainJoin_cons_inr (t : RTag) (ps : List (Sum (List Char) RTag)) :
    plainJoin (Sum.inr t :: ps) = plainJoin ps := by
  simp [plainJoin]

/-- A literal text chunk contributes its text. -/
theorem plainJoin_cons_inl (txt : List Char) (ps : List (Sum (List Char) RTag)) :
    plainJoin (Sum.inl txt :: ps) = txt ++ plainJoin ps := by
  simp [plainJoin]

/-- The text-merging step of `tagSplitGo` prepends exactly one character to
the literal join. -/
theorem plainJoin_textCons (c : Char) (l : List (Sum (List Char) RTag)) :
    plainJoin
      (match l with
        | Sum.inl p :: ps => Sum.inl (c :: p) :: ps
        | ps => Sum.inl [c] :: ps) = c :: plainJoin l := by
  match l with
  | [] => simp [plainJoin]
  | Sum.inl p :: ps => simp [plainJoin]
  | Sum.inr t :: ps => simp [plainJoin]

/-- Segment text of one parse step. -/
theorem joinTexts_cons (sg : Seg) (segs : List Seg) :
    joinTexts (sg :: segs) = sg.text ++ joinTexts segs := by
  simp [joinTexts]

/-- `Char.ofNat` of a valid code point evaluates back to it. -/
theorem toNat_ofNat_valid (n : Nat) (h : n.isValidChar) : (Char.ofNat n).toNat = n := by
  unfold Char.ofNat
  rw [dif_pos h]
  unfold Char.ofNatAux Char.toNat
  rfl

/-- ASCII lowercasing only produces `<` from `<` itself: uppercase letters
map into `a`-`z`, every other character is fixed. -/
theorem asciiLower_eq_lt {c : Char} (h : asciiLower c = '<') : c = '<' := by
  unfold asciiLower at h
  split at h
  · next hc =>
    exfalso
    have h1 : (Char.ofNat (c.toNat + 32)).toNat = c.toNat + 32 :=
      toNat_ofNat_valid _ (Or.inl (by
        have h2 : c.toNat ≤ 90 := hc.2
        omega))
    rw [h] at h1
    have h3 : 65 ≤ c.toNat := hc.1
    have h4 : ('<').toNat = 60 := rfl
    omega
  · exact h

/-- A literal part containing no `<` takes the emit branch of the loop
dispatch: a segment with the part's text and the current top style, and the
stack is unchanged. -/
theorem pyStep_plain (part : List Char) (stack : List RStyle) (h : '<' ∉ part) :
    pyStep part stack
      = (some { text := part,
                color := (stack.headD ⟨false, [], 0⟩).color,
                size := (stack.headD ⟨false, [], 0⟩).size,
                bold := (stack.headD ⟨false, [], 0⟩).bold }, stack) := by
  have key : '<' ∉ part.map asciiLower := by
    intro hm
    obtain ⟨c, hc, hlc⟩ := List.mem_map.mp hm
    exact h (asciiLower_eq_lt hlc ▸ hc)
  have g1 : ¬ part.map asciiLower = "<b>".data := by
    intro he; exact key (by rw [he]; decide)
  have g2 : ¬ part.map asciiLower = "</b>".data := by
    intro he; exact key (by rw [he]; decide)
  have g3 : ¬ (part.map asciiLower).take 3 = "<c:".data := by
    intro he
    exact key ((List.take_subset 3 _) (by rw [he]; decide))
  have g4 : ¬ part.map asciiLower = "</c>".data := by
    intro he; exact key (by rw [he]; decide)
  have g5 : ¬ (part.map asciiLower).take 3 = "<s:".data := by
    intro he
    exact key ((List.take_subset 3 _) (by rw [he]; decide))
  have g6 : ¬ part.map asciiLower = "</s>".data := by
    intro he; exact key (by rw [he]; decide)
  unfold pyStep
  rw [if_neg g1, if_neg g2, if_neg g3, if_neg g4, if_neg g5, if_neg g6]

/-- A digit is not Python-numeral whitespace. -/
theorem isDigit_not_pySpace {c : Char} (h : c.isDigit = true) : isPySpace c = false := by
  unfold isPySpace
  rw [decide_eq_false_iff_not]
  intro hc
  rcases hc with h1 | h1 | h1 | h1 | h1 | h1 <;>
    (rw [h1] at h; exact absurd h (by decide))

/-- A string of plain digits passes the post-first-digit numeral grammar. -/
theorem digitsTail_all : ∀ (l : List Char), (∀ x ∈ l, x.isDigit = true) →
    digitsTail l = true := by
  intro l
  induction l with
  | nil => intro _; rfl
  | cons c rest ih =>
    intro h
    have hc : c.isDigit = true := h _ (List.mem_cons_self _ _)
    have hcu : ¬ c = '_' := by
      intro he; rw [he] at hc; exact absurd hc (by decide)
    show digitsTail (c :: rest) = true
    unfold digitsTail
    rw [if_neg hcu, hc, ih (fun x hx => h x (List.mem_cons_of_mem _ hx))]
    rfl

/-- Stripping surrounding whitespace from a whitespace-free string is the
identity. -/
theorem stripPy_eq_self (l : List Char) (h : ∀ x ∈ l, isPySpace x = false) :
    stripPy l = l := by
  have h1 : l.dropWhile isPySpace = l := by
    cases l with
    | nil => rfl
    | cons a t => simp [List.dropWhile_cons, h a (List.mem_cons_self _ _)]
  have h2 : l.reverse.dropWhile isPySpace = l.reverse := by
    cases hr : l.reverse with
    | nil => rfl
    | cons a t =>
      have ha : a ∈ l := by
        rw [← List.mem_reverse, hr]; exact List.mem_cons_self _ _
      simp [List.dropWhile_cons, h a ha]
  unfold stripPy
  rw [h1, h2, List.reverse_reverse]

/-- Python `int()` on a plain nonempty digit string returns its value. -/
theorem pyInt_digits (d : Char) (ds2 : List Char)
    (h : ∀ x ∈ d :: ds2, x.isDigit = true) :
    pyInt (d :: ds2) = some ((natFromDigits (d :: ds2) : Int)) := by
  have hd : d.isDigit = true := h _ (List.mem_cons_self _ _)
  have hstrip : stripPy (d :: ds2) = d :: ds2 :=
    stripPy_eq_self _ (fun x hx => isDigit_not_pySpace (h x hx))
  have hplus : ¬ d = '+' := by
    intro he; rw [he] at hd; exact absurd hd (by decide)
  have hminus : ¬ d = '-' := by
    intro he; rw [he] at hd; exact absurd hd (by decide)
  have hpd : pyIntDigits (d :: ds2) = true := by
    simp [pyIntDigits, hd,
      digitsTail_all ds2 (fun x hx => h x (List.mem_cons_of_mem _ hx))]
  have hfil : (d :: ds2).filter (fun c => decide (c ≠ '_')) = d :: ds2 := by
    refine List.filter_eq_self.mpr ?_
    intro a ha
    have hda := h a ha
    simp only [decide_eq_true_iff]
    intro he; rw [he] at hda; exact absurd hda (by decide)
  unfold pyInt
  rw [hstrip]
  simp only [if_neg hplus, if_neg hminus, hpd, if_true]
  unfold pyIntVal
  rw [hfil]

/-- Fidelity of the two-level tag modelling: on the source text of a
regex-matched tag (with a well-formed payload, as the regex guarantees:
nonempty hex digits for a color, nonempty decimal digits for a size), the
loop's string dispatch `pyStep` emits nothing and changes the stack exactly
as the token-level `applyTag` does.  The split-plus-token embedding is thus
the same function as the single Python loop. -/
theorem applyTag_matches_loop (stack : List RStyle) :
    pyStep (tagText .bOpen) stack = (none, applyTag .bOpen stack)
    ∧ pyStep (tagText .bClose) stack = (none, applyTag .bClose stack)
    ∧ pyStep (tagText .cClose) stack = (none, applyTag .cClose stack)
    ∧ pyStep (tagText .sClose) stack = (none, applyTag .sClose stack)
    ∧ (∀ hex, hex ≠ [] → (∀ x ∈ hex, isHexChar x = true) →
        pyStep (tagText (.cOpen hex)) stack = (none, applyTag (.cOpen hex) stack))
    ∧ (∀ ds, ds ≠ [] → (∀ x ∈ ds, x.isDigit = true) →
        pyStep (tagText (.sOpen ds)) stack = (none, applyTag (.sOpen ds) stack)) := by
  refine ⟨?_, ?_, ?_, ?_, ?_, ?_⟩
  · show pyStep "<b>".data stack = _
    unfold pyStep
    rw [if_pos (by decide)]
    rfl
  · show pyStep "</b>".data stack = _
    unfold pyStep
    rw [if_neg (by decide), if_pos (by decide)]
    rfl
  · show pyStep "</c>".data stack = _
    unfold pyStep
    rw [if_neg (by decide), if_neg (by decide), if_neg (by decide), if_pos (by decide)]
    rfl
  · show pyStep "</s>".data stack = _
    unfold pyStep
    rw [if_neg (by decide), if_neg (by decide), if_neg (by decide), if_neg (by decide),
      if_neg (by decide), if_pos (by decide)]
    rfl
  · intro hex hne hhex
    have hform : tagText (RTag.cOpen hex) = '<' :: 'c' :: ':' :: '#' :: (hex ++ ['>']) := by
      simp [tagText]
    have hlen5 : (tagText (RTag.cOpen hex)).length = hex.length + 5 := by
      rw [hform]; simp
    have g1 : ¬ (tagText (RTag.cOpen hex)).map asciiLower = "<b>".data := by
      intro he
      have hl := congrArg List.length he
      rw [List.length_map, hlen5] at hl
      simp at hl
    have g2 : ¬ (tagText (RTag.cOpen hex)).map asciiLower = "</b>".data := by
      intro he
      have hl := congrArg List.length he
      rw [List.length_map, hlen5] at hl
      simp at hl
    have a1 : asciiLower '<' = '<' := by decide
    have a2 : asciiLower 'c' = 'c' := by decide
    have a3 : asciiLower ':' = ':' := by decide
    have g3 : ((tagText (RTag.cOpen hex)).map asciiLower).take 3 = "<c:".data := by
      rw [hform]
      simp [a1, a2, a3]
    have hval : ((tagText (RTag.cOpen hex)).drop 3).dropLast = '#' :: hex := by
      rw [hform]
      simp only [List.drop_succ_cons, List.drop_zero]
      rw [show ('#' :: (hex ++ ['>'])) = ('#' :: hex) ++ ['>'] from by simp]
      exact List.dropLast_concat
    have hall : hex.all isHexChar = true := List.all_eq_true.mpr hhex
    have hcc : colorCore ('#' :: hex) = validColorLen hex := by
      simp [colorCore, hall]
    have hlast : (decide (('#' :: hex).getLast? = some '\n')) = false := by
      rw [decide_eq_false_iff_not]
      intro hg
      have hmem : '\n' ∈ '#' :: hex := List.mem_of_mem_getLast? hg
      rcases List.mem_cons.mp hmem with h1 | h1
      · exact absurd h1 (by decide)
      · exact absurd (hhex _ h1) (by decide)
    have hvc : validate_color_format ('#' :: hex) = validColorLen hex := by
      unfold validate_color_format
      rw [hcc, hlast]
      simp
    unfold pyStep
    rw [if_neg g1, if_neg g2, if_pos g3, hval, hvc]
    cases stack with
    | nil => cases hv : validColorLen hex <;> simp [applyTag, hv]
    | cons top rest => cases hv : validColorLen hex <;> simp [applyTag, hv]
  · intro ds hne hds
    have hform : tagText (RTag.sOpen ds) = '<' :: 's' :: ':' :: (ds ++ ['>']) := by
      simp [tagText]
    have hlen4 : (tagText (RTag.sOpen ds)).length = ds.length + 4 := by
      rw [hform]; simp
    have g1 : ¬ (tagText (RTag.sOpen ds)).map asciiLower = "<b>".data := by
      intro he
      have hl := congrArg List.length he
      rw [List.length_map, hlen4] at hl
      simp at hl
    have g2 : ¬ (tagText (RTag.sOpen ds)).map asciiLower = "</b>".data := by
      intro he
      have hl := congrArg List.length he
      rw [List.length_map, hlen4] at hl
      simp at hl
      exact hne hl
    have a1 : asciiLower '<' = '<' := by decide
    have a2 : asciiLower 's' = 's' := by decide
    have a3 : asciiLower ':' = ':' := by decide
    have g3 : ¬ ((tagText (RTag.sOpen ds)).map asciiLower).take 3 = "<c:".data := by
      rw [hform]
      simp [a1, a2, a3]
    have g4 : ¬ (tagText (RTag.sOpen ds)).map asciiLower = "</c>".data := by
      intro he
      have hl := congrArg List.length he
      rw [List.length_map, hlen4] at hl
      simp at hl
      exact hne hl
    have g5 : ((tagText (RTag.sOpen ds)).map asciiLower).take 3 = "<s:".data := by
      rw [hform]
      simp [a1, a2, a3]
    have hval : ((tagText (RTag.sOpen ds)).drop 3).dropLast = ds := by
      rw [hform]
      simp only [List.drop_succ_cons, List.drop_zero]
      exact List.dropLast_concat
    obtain ⟨d, ds2, rfl⟩ : ∃ d ds2, ds = d :: ds2 := by
      cases ds with
      | nil => exact absurd rfl hne
      | cons d ds2 => exact ⟨d, ds2, rfl⟩
    have hint : pyInt (d :: ds2) = some (natFromDigits (d :: ds2)) :=
      pyInt_digits d ds2 hds
    unfold pyStep
    rw [if_neg g1, if_neg g2, if_neg g3, if_neg g4, if_pos g5, hval, hint]
    cases stack with
    | nil => simp [applyTag]
    | cons top rest => simp [applyTag]

/-- Concatenating the parser's segment texts gives the literal text of the
split parts, independently of the style stack, provided no literal part
contains a `<` (otherwise the string dispatch of the loop may swallow the
part or treat it as a style push instead of emitting it). -/
theorem joinTexts_parseSteps :
    ∀ (parts : List (Sum (List Char) RTag)) (stack : List RStyle),
      (∀ txt, Sum.inl txt ∈ parts → '<' ∉ txt) →
      joinTexts (parseSteps parts stack) = plainJoin parts := by
  intro parts
  induction parts with
  | nil => intro stack _; rfl
  | cons p ps ih =>
    intro stack hp
    cases p with
    | inl txt =>
      have htxt : '<' ∉ txt := hp txt (List.mem_cons_self _ _)
      rw [show parseSteps (Sum.inl txt :: ps) stack
          = { text := txt, color := (stack.headD ⟨false, [], 0⟩).color,
              size := (stack.headD ⟨false, [], 0⟩).size,
              bold := (stack.headD ⟨false, [], 0⟩).bold } :: parseSteps ps stack from by
        simp only [parseSteps, pyStep_plain txt stack htxt]]
      rw [joinTexts_cons, plainJoin_cons_inl,
        ih stack (fun t ht => hp t (List.mem_cons_of_mem _ ht))]
    | inr t =>
      rw [show parseSteps (Sum.inr t :: ps) stack
          = parseSteps ps (applyTag t stack) from rfl]
      rw [plainJoin_cons_inr, ih _ (fun t2 ht => hp t2 (List.mem_cons_of_mem _ ht))]

/-- Every `strictTags` text is a `goodTags` text: if every `<` begins a
grammar tag then in particular every `<...>` span is a grammar tag. -/
theorem strictGo_goodGo : ∀ (fuel : Nat) (cs : List Char),
    strictGo fuel cs = true → goodGo fuel cs = true := by
  intro fuel
  induction fuel with
  | zero => intro cs _; cases cs <;> rfl
  | succ f ih =>
    intro cs hs
    cases cs with
    | nil => rfl
    | cons c rest =>
      cases hscan : scanTag (c :: rest) with
      | some p =>
        obtain ⟨t, n⟩ := p
        have hs2 : strictGo f ((c :: rest).drop n) = true := by
          simpa [strictGo, hscan] using hs
        simpa [goodGo, hscan] using ih _ hs2
      | none =>
        by_cases hc : c = '<'
        · exfalso
          subst hc
          rw [show strictGo (f + 1) ('<' :: rest) = false from by
            simp [strictGo, hscan]] at hs
          exact absurd hs (by simp)
        · have hs2 : strictGo f rest = true := by
            simpa [strictGo, hscan, hc] using hs
          simpa [goodGo, hscan, hc] using ih _ hs2

/-- Under `strictGo`, no literal part of the tag split contains a `<`:
every `<` is consumed as the head of a recognized tag. -/
theorem tagSplit_noLt : ∀ (fuel : Nat) (cs : List Char), cs.length ≤ fuel →
    strictGo fuel cs = true →
    ∀ txt, Sum.inl txt ∈ tagSplitGo fuel cs → '<' ∉ txt := by
  intro fuel
  induction fuel with
  | zero =>
    intro cs _ _ txt hmem
    simp [tagSplitGo] at hmem
  | succ f ih =>
    intro cs hlen hs txt hmem
    cases cs with
    | nil => simp [tagSplitGo] at hmem
    | cons c rest =>
      cases hscan : scanTag (c :: rest) with
      | some p =>
        obtain ⟨t, n⟩ := p
        obtain ⟨-, hn1, hn2, -⟩ := scanTag_spec hscan
        rw [show tagSplitGo (f + 1) (c :: rest)
            = Sum.inr t :: tagSplitGo f ((c :: rest).drop n) from by
          simp [tagSplitGo, hscan]] at hmem
        have hmem2 : Sum.inl txt ∈ tagSplitGo f ((c :: rest).drop n) := by
          rcases List.mem_cons.mp hmem with h1 | h1
          · exact absurd h1 (by simp)
          · exact h1
        have hs2 : strictGo f ((c :: rest).drop n) = true := by
          simpa [strictGo, hscan] using hs
        refine ih _ ?_ hs2 txt hmem2
        simp only [List.length_drop, List.length_cons] at hn2 ⊢
        simp only [List.length_cons] at hlen
        omega
      | none =>
        have hcne : ¬ c = '<' := by
          intro hc
          subst hc
          rw [show strictGo (f + 1) ('<' :: rest) = false from by
            simp [strictGo, hscan]] at hs
          exact absurd hs (by simp)
        have hs2 : strictGo f rest = true := by
          simpa [strictGo, hscan, hcne] using hs
        have hlen2 : rest.length ≤ f := by
          simp only [List.length_cons] at hlen; omega
        have ihr := ih rest hlen2 hs2
        cases hsp : tagSplitGo f rest with
        | nil =>
          rw [show tagSplitGo (f + 1) (c :: rest) = [Sum.inl [c]] from by
            simp [tagSplitGo, hscan, hsp]] at hmem
          have : txt = [c] := by simpa using hmem
          subst this
          intro hin
          rw [List.mem_singleton] at hin
          exact hcne hin.symm
        | cons hd tl =>
          cases hd with
          | inl p =>
            rw [show tagSplitGo (f + 1) (c :: rest) = Sum.inl (c :: p) :: tl from by
              simp [tagSplitGo, hscan, hsp]] at hmem
            rcases List.mem_cons.mp hmem with h1 | h1
            · have hp2 : '<' ∉ p := ihr p (by rw [hsp]; exact List.mem_cons_self _ _)
              have : txt = c :: p := by simpa using h1
              subst this
              intro hin
              rcases List.mem_cons.mp hin with h2 | h2
              · exact hcne h2.symm
              · exact hp2 h2
            · exact ihr txt (by rw [hsp]; exact List.mem_cons_of_mem _ h1)
          | inr t2 =>
            rw [show tagSplitGo (f + 1) (c :: rest)
                = Sum.inl [c] :: Sum.inr t2 :: tl from by
              simp [tagSplitGo, hscan, hsp]] at hmem
            rcases List.mem_cons.mp hmem with h1 | h1
            · have : txt = [c] := by simpa using h1
              subst this
              intro hin
              rw [List.mem_singleton] at hin
              exact hcne hin.symm
            · exact ihr txt (by rw [hsp]; exact h1)

/-- Core correspondence: on a text whose `<...>` spans all match the tag
grammar, the literal text of the tag split equals the tag-stripped text. -/
theorem plain_eq_strip :
    ∀ (fuel : Nat) (cs : List Char), cs.length ≤ fuel → goodGo fuel cs = true →
      plainJoin (tagSplitGo fuel cs) = stripGo fuel cs := by
  intro fuel
  induction fuel with
  | zero =>
    intro cs hlen _
    rw [List.length_eq_zero.mp (Nat.le_zero.mp hlen)]
    rfl
  | succ f ih =>
    intro cs hlen hgood
    cases cs with
    | nil => rfl
    | cons c rest =>
      cases hscan : scanTag (c :: rest) with
      | some p =>
        obtain ⟨t, n⟩ := p
        obtain ⟨hc, hn1, hn2, hfind⟩ := scanTag_spec hscan
        subst hc
        rw [show tagSplitGo (f + 1) ('<' :: rest)
            = Sum.inr t :: tagSplitGo f (('<' :: rest).drop n) from by
          simp [tagSplitGo, hscan]]
        rw [plainJoin_cons_inr]
        rw [show stripGo (f + 1) ('<' :: rest) = stripGo f (('<' :: rest).drop n) from by
          simp [stripGo, hfind]]
        have hgood' : goodGo f (('<' :: rest).drop n) = true := by
          simpa [goodGo, hscan] using hgood
        refine ih _ ?_ hgood'
        simp only [List.length_drop, List.length_cons] at hn2 ⊢
        simp only [List.length_cons] at hlen
        omega
      | none =>
        rw [show tagSplitGo (f + 1) (c :: rest)
            = (match tagSplitGo f rest with
                | Sum.inl p :: ps => Sum.inl (c :: p) :: ps
                | ps => Sum.inl [c] :: ps) from by
          simp [tagSplitGo, hscan]]
        rw [plainJoin_textCons]
        by_cases hc : c = '<'
        · subst hc
          have hand : ((findGt rest).isNone && goodGo f rest) = true := by
            simpa [goodGo, hscan] using hgood
          rw [Bool.and_eq_true] at hand
          obtain ⟨hfg, hgood'⟩ := hand
          rw [show stripGo (f + 1) ('<' :: rest) = '<' :: stripGo f rest from by
            simp [stripGo, Option.isNone_iff_eq_none.mp hfg]]
          rw [ih rest (by simp at hlen; omega) hgood']
        · rw [show stripGo (f + 1) (c :: rest) = c :: stripGo f rest from by
            simp [stripGo, hc]]
          have hgood' : goodGo f rest = true := by
            simpa [goodGo, hscan, hc] using hgood
          rw [ih rest (by simp at hlen; omega) hgood']

/-- The loop's string dispatch swallows an unterminated partial color tag:
`"<c:xyz"` has no `>`, so the split regex matches nothing and the whole
input is a single literal part; that part enters the `startswith('<c:')`
branch, its value `"xy"` fails color validation, and the text is silently
dropped — the parse yields no segments at all while the tag stripper leaves
the text intact.  Such inputs are exactly what `strictTags` excludes. -/
theorem stray_tag_swallowed :
    parse_rich_text "<c:xyz".data 48 "#FFFFFF".data = []
    ∧ strip_tags "<c:xyz".data = "<c:xyz".data
    ∧ strictTags "<c:xyz".data = false := by
  refine ⟨by decide, by decide, by decide⟩

/-- C3 (amended): for an ASCII input in which every `<` begins a tag of the
split grammar — which excludes stray partial tags such as `"<c:xyz"`, whose
text the loop's `startswith` dispatch silently swallows — parsing the
(emoji-removed) message and concatenating the segment texts, ignoring
style, yields exactly the tag-stripped emoji-removed input.  No whitespace
trimming occurs anywhere in the pipeline.  (The ASCII restriction keeps the
embedding exact: Python's `\d`, `int()` and `str.lower()` are modelled over
ASCII.) -/
theorem parse_concat_eq_strip (raw : List Char) (sz : Nat) (col : List Char)
    (hA : ∀ c ∈ raw, c.toNat < 128)
    (h : strictTags (remove_emojis raw) = true) :
    joinTexts (parse_rich_text (remove_emojis raw) sz col)
      = strip_tags (remove_emojis raw) := by
  unfold parse_rich_text tagSplitParts strip_tags
  rw [joinTexts_parseSteps _ _ (tagSplit_noLt _ _ le_rfl h)]
  exact plain_eq_strip _ _ le_rfl (strictGo_goodGo _ _ h)

/-- Counterexample to C3 as stated: the input `" a "` contains no tags and
no emoji — so it trivially contains only balanced grammar-matching tags —
yet parse-then-concatenate yields `" a "`, not the trimmed `"a"` the claim
demands: the parser preserves leading/trailing whitespace verbatim. -/
theorem parse_concat_not_trimmed_cex :
    strictTags (remove_emojis " a ".data) = true
    ∧ joinTexts (parse_rich_text (remove_emojis " a ".data) 48 "#FFFFFF".data)
        ≠ specTrim (strip_tags (remove_emojis " a ".data)) := by
  constructor
  · decide
  · decide

/-- Witness for `parse_concat_eq_strip` on a concrete tagged input. -/
theorem parse_concat_eq_strip_witness :
    (∀ c ∈ "<b> hi </b>".data, c.toNat < 128)
    ∧ strictTags (remove_emojis "<b> hi </b>".data) = true
    ∧ joinTexts (parse_rich_text (remove_emojis "<b> hi </b>".data) 48 "#FFFFFF".data)
        = strip_tags (remove_emojis "<b> hi </b>".data) :=
  ⟨by decide, by decide, parse_concat_eq_strip _ _ _ (by decide) (by decide)⟩

/-- Counterexample to C4 as stated: in `"<b>x<c:#12345>y</c>z"` the color
tag matches the grammar but its 5-digit value fails validation, so it is
dropped with no push — yet the later `</c>` still pops the enclosing bold
frame, so `z` is parsed *without* the bold style that was current before
the invalid opening tag (the claim demands `z` keep that style). -/
theorem invalid_color_tag_cex :
    parse_rich_text "<b>x<c:#12345>y</c>z".data 40 "#FFFFFF".data
      = [⟨"x".data, "#FFFFFF".data, 40, true⟩,
         ⟨"y".data, "#FFFFFF".data, 40, true⟩,
         ⟨"z".data, "#FFFFFF".data, 40, false⟩]
    ∧ (parse_rich_text "<b>x<c:#12345>y</c>z".data 40 "#FFFFFF".data).map Seg.bold
      = [true, true, false] := by
  constructor
  · decide
  · decide

/-- C4 (amended): a recognized-but-invalid color value is dropped silently
with the prior style kept — parsing with the invalid tag part present
equals parsing without it, so no segment text is emitted for the tag and
the style stack is untouched at that point.  (A later matching closing tag
still pops the enclosing frame, so text after the close reverts to the
enclosing style, not to the style current before the invalid tag.) -/
theorem invalid_color_tag_dropped (hex : List Char)
    (hinv : validColorLen hex = false)
    (pre post : List (Sum (List Char) RTag)) (stack : List RStyle) :
    parseSteps (pre ++ Sum.inr (RTag.cOpen hex) :: post) stack
      = parseSteps (pre ++ post) stack := by
  induction pre generalizing stack with
  | nil =>
    have happ : applyTag (RTag.cOpen hex) stack = stack := by
      cases stack with
      | nil => rfl
      | cons top rest => simp [applyTag, hinv]
    simp only [List.nil_append, parseSteps, happ]
  | cons p pre ih =>
    cases p with
    | inl txt =>
      simp only [List.cons_append, parseSteps, List.append_eq]
      rcases hps : pyStep txt stack with ⟨sg, stack2⟩
      cases sg <;> simp only [hps] <;> rw [ih]
    | inr t =>
      simp only [List.cons_append, parseSteps, List.append_eq]
      rw [ih]

/-- Witness for `invalid_color_tag_dropped` on a concrete invalid 5-digit
hex value. -/
theorem invalid_color_tag_dropped_witness :
    validColorLen "12345".data = false
    ∧ parseSteps
        ([Sum.inl "x".data] ++ Sum.inr (RTag.cOpen "12345".data) :: [Sum.inl "y".data])
        [⟨false, "#FFFFFF".data, 40⟩]
      = parseSteps ([Sum.inl "x".data] ++ [Sum.inl "y".data])
        [⟨false, "#FFFFFF".data, 40⟩] :=
  ⟨by decide, invalid_color_tag_dropped _ (by decide) _ _ _⟩

/-- Witness for `wrap_width_bound` at a concrete measure, budget and input. -/
theorem wrap_width_bound_witness :
    ((0 : ℚ) ≤ 800)
    ∧ ∀ line ∈ wrap_rich_text (fun sz w => (sz : ℚ) * w.length)
        [⟨"hello world".data, "#FFFFFF".data, 48, true⟩] 800,
        lineOk (fun sz w => (sz : ℚ) * w.length) 800 line :=
  ⟨by norm_num, wrap_width_bound _ _ _ (by norm_num)⟩

/-! ## Race lemmas for the interleaved two-execution system -/

/-- The acquire section never touches the media id. -/
theorem acquireUpdate_media (now : Int) (row : PostRow) :
    (acquireUpdate now row).1.instagram_media_id = row.instagram_media_id := by
  unfold acquireUpdate
  split
  · rfl
  · split
    · rfl
    · split <;> rfl

/-- The acquire section leaves the status alone or sets `PROCESSING`. -/
theorem acquireUpdate_status (now : Int) (row : PostRow) :
    (acquireUpdate now row).1.status = row.status
      ∨ (acquireUpdate now row).1.status = .processing := by
  unfold acquireUpdate
  split
  · exact Or.inl rfl
  · split
    · exact Or.inl rfl
    · split
      · exact Or.inl rfl
      · exact Or.inr rfl

/-- A proceeding acquire saw a non-`POSTED` row with no media id. -/
theorem acquireUpdate_proceed (now : Int) (row : PostRow)
    (h : (acquireUpdate now row).2 = true) :
    row.status ≠ .posted ∧ row.instagram_media_id = none := by
  unfold acquireUpdate at h
  split at h
  · exact absurd h (by simp)
  · rename_i hcond
    push_neg at hcond
    exact ⟨hcond.1, hcond.2⟩

/-- A proceeding acquire marks the row `PROCESSING` and changes nothing
else. -/
theorem acquireUpdate_proceed_eq (now : Int) (row : PostRow)
    (h : (acquireUpdate now row).2 = true) :
    acquireUpdate now row = ({ row with status := .processing }, true) := by
  unfold acquireUpdate at h ⊢
  split at h
  · exact absurd h (by simp)
  · rename_i hcond
    split at h
    · exact absurd h (by simp)
    · rename_i hsched
      rw [if_neg hcond, if_neg hsched]
      split
      · rename_i hproc
        cases row
        simp at hproc ⊢
        rw [hproc]
      · rfl

/-- An aborting acquire returns the row unchanged. -/
theorem acquireUpdate_abort_eq (now : Int) (row : PostRow)
    (h : (acquireUpdate now row).2 = false) :
    (acquireUpdate now row).1 = row := by
  unfold acquireUpdate at h ⊢
  split_ifs at h ⊢
  · rfl
  · rfl

/-- The acquire guard: a `POSTED` row aborts immediately. -/
theorem acquireUpdate_posted (now : Int) (row : PostRow)
    (h : row.status = .posted) : acquireUpdate now row = (row, false) := by
  unfold acquireUpdate
  rw [if_pos (Or.inl h)]

/-- A `PROCESSING` row with no media id proceeds, unchanged. -/
theorem acquireUpdate_processing (now : Int) (row : PostRow)
    (h : row.status = .processing) (hm : row.instagram_media_id = none) :
    acquireUpdate now row = (row, true) := by
  unfold acquireUpdate
  rw [if_neg (by simp [h, hm]), if_neg (by simp [schedEarlyAbort, h]), if_pos h]

/-- The commit guard: a row already `POSTED` is left untouched. -/
theorem commitUpdate_posted (now : Int) (r : PubReturn) (row : PostRow)
    (h : row.status = .posted) : commitUpdate now r row = row := by
  unfold commitUpdate
  rw [if_pos h]

/-- A successful commit on a not-yet-`POSTED` row records the result. -/
theorem commitUpdate_success (now : Int) (r : PubReturn) (row : PostRow)
    (h : ¬ row.status = .posted) (hs : r.success = true) :
    commitUpdate now r row
      = { row with
            status := .posted
            instagram_media_id := r.media_id
            posted_at := some now
            meta_api_error := none
            meta_api_status := some 200 } := by
  unfold commitUpdate
  rw [if_neg h, if_pos hs]

/-- A failed commit on a not-yet-`POSTED` row records the failure and does
not touch the media id. -/
theorem commitUpdate_failure (now : Int) (r : PubReturn) (row : PostRow)
    (h : ¬ row.status = .posted) (hs : ¬ r.success = true) :
    commitUpdate now r row
      = { row with
            status := .failed
            meta_api_error := r.error
            meta_api_status := some r.status_code } := by
  unfold commitUpdate
  rw [if_neg h, if_neg hs]

/-- Exhaustive description of one atomic step of one execution. -/
theorem stepRun_cases (spec : RunSpec) (row : PostRow) (st : RunCtl) :
    (st.pc = 0 ∧ stepRun spec row st
        = ((acquireUpdate spec.now row).1, ⟨1, (acquireUpdate spec.now row).2⟩))
    ∨ (st.pc = 1 ∧ st.proceed = true
        ∧ ∃ r, spec.act = .commit r
            ∧ stepRun spec row st = (commitUpdate spec.now r row, ⟨2, true⟩))
    ∨ (st.pc = 1 ∧ st.proceed = true
        ∧ ∃ msg, spec.act = .fail msg
            ∧ stepRun spec row st = (fail_post msg row, ⟨2, true⟩))
    ∨ (st.pc = 1 ∧ st.proceed = false ∧ stepRun spec row st = (row, ⟨2, false⟩))
    ∨ (¬ st.pc = 0 ∧ ¬ st.pc = 1 ∧ stepRun spec row st = (row, st)) := by
  unfold stepRun
  by_cases h0 : st.pc = 0
  · refine Or.inl ⟨h0, ?_⟩
    rw [if_pos h0]
  · by_cases h1 : st.pc = 1
    · by_cases hp : st.proceed = true
      · cases hact : spec.act with
        | commit r =>
          refine Or.inr (Or.inl ⟨h1, hp, r, rfl, ?_⟩)
          simp only [if_neg h0, if_pos h1, hp, hact, if_true]
        | fail msg =>
          refine Or.inr (Or.inr (Or.inl ⟨h1, hp, msg, rfl, ?_⟩))
          simp only [if_neg h0, if_pos h1, hp, hact, if_true]
      · have hp2 : st.proceed = false := by
          simpa using hp
        refine Or.inr (Or.inr (Or.inr (Or.inl ⟨h1, hp2, ?_⟩)))
        simp [if_neg h0, if_pos h1, hp2]
    · refine Or.inr (Or.inr (Or.inr (Or.inr ⟨h0, h1, ?_⟩)))
      rw [if_neg h0, if_neg h1]

/-- `_fail_post` never touches the media id. -/
theorem fail_post_media (msg : String) (row : PostRow) :
    (fail_post msg row).instagram_media_id = row.instagram_media_id := rfl

/-- Swapping the two executions preserves the invariant. -/
theorem SysInv_swap (s1 s2 : RunSpec) (sys : Sys) (h : SysInv s1 s2 sys) :
    SysInv s2 s1 (swapSys sys) := by
  obtain ⟨hM, hK1, hK2⟩ := h
  exact ⟨fun hm => (hM hm).symm, hK2, hK1⟩

/-- A step of execution 2 is a swapped step of execution 1. -/
theorem stepSys_false_eq (s1 s2 : RunSpec) (sys : Sys) :
    stepSys s1 s2 sys false = swapSys (stepSys s2 s1 (swapSys sys) true) := rfl

/-- One step of execution 1 preserves the invariant. -/
theorem stepSys_true_inv (s1 s2 : RunSpec) (sys : Sys) (h : SysInv s1 s2 sys) :
    SysInv s1 s2 (stepSys s1 s2 sys true) := by
  obtain ⟨hM, hK1, hK2⟩ := h
  have hstep : stepSys s1 s2 sys true
      = ⟨(stepRun s1 sys.row sys.c1).1, (stepRun s1 sys.row sys.c1).2, sys.c2⟩ := rfl
  rcases stepRun_cases s1 sys.row sys.c1 with
    ⟨hpc, heq⟩ | ⟨hpc, hpr, r, hact, heq⟩ | ⟨hpc, hpr, msg, hact, heq⟩
    | ⟨hpc, hpr, heq⟩ | ⟨hpc0, hpc1, heq⟩
  · -- acquire step
    rw [hstep, heq]
    dsimp only
    refine ⟨?_, ?_, ?_⟩
    · intro hm
      rw [acquireUpdate_media] at hm
      rcases hM hm with hd | hd
      · simp [doneSuccess, hpc] at hd
      · exact Or.inr hd
    · intro hd
      have hpr := hd.2.1
      exact Or.inl (by rw [acquireUpdate_media]
                       exact (acquireUpdate_proceed _ _ hpr).2)
    · intro hd
      rcases hK2 hd with hmn | hpo
      · exact Or.inl (by rw [acquireUpdate_media]; exact hmn)
      · rw [acquireUpdate_posted s1.now sys.row hpo]
        exact Or.inr hpo
  · -- successful or failed commit step
    rw [hstep, heq]
    dsimp only
    by_cases hpo : sys.row.status = .posted
    · rw [commitUpdate_posted _ _ _ hpo]
      refine ⟨?_, ?_, ?_⟩
      · intro hm
        rcases hM hm with hd | hd
        · simp [doneSuccess, hpc] at hd
        · exact Or.inr hd
      · intro hd
        exact absurd hd.1 (by simp)
      · intro hd
        exact Or.inr hpo
    · by_cases hs : r.success = true
      · rw [commitUpdate_success _ _ _ hpo hs]
        refine ⟨?_, ?_, ?_⟩
        · intro hm
          exact Or.inl ⟨rfl, rfl, by rw [hact]; exact hs⟩
        · intro hd
          exact absurd hd.1 (by simp)
        · intro hd
          exact Or.inr rfl
      · rw [commitUpdate_failure _ _ _ hpo hs]
        refine ⟨?_, ?_, ?_⟩
        · intro hm
          rcases hM hm with hd | hd
          · simp [doneSuccess, hpc] at hd
          · exact Or.inr hd
        · intro hd
          exact absurd hd.1 (by simp)
        · intro hd
          rcases hK2 hd with hmn | hpo2
          · exact Or.inl hmn
          · exact absurd hpo2 hpo
  · -- `_fail_post` step
    rw [hstep, heq]
    dsimp only
    refine ⟨?_, ?_, ?_⟩
    · intro hm
      rw [fail_post_media] at hm
      rcases hM hm with hd | hd
      · simp [doneSuccess, hpc] at hd
      · exact Or.inr hd
    · intro hd
      exact absurd hd.1 (by simp)
    · intro hd
      rcases hK2 hd with hmn | hpo
      · exact Or.inl (by rw [fail_post_media]; exact hmn)
      · by_cases hmn2 : sys.row.instagram_media_id = none
        · exact Or.inl (by rw [fail_post_media]; exact hmn2)
        · rcases hM hmn2 with hd1 | hd2
          · simp [doneSuccess, hpc] at hd1
          · have hc2pc : sys.c2.pc = 1 := hd.1
            have hc2pc2 : sys.c2.pc = 2 := hd2.1
            omega
  · -- skipped final section (acquire aborted)
    rw [hstep, heq]
    dsimp only
    refine ⟨?_, ?_, ?_⟩
    · intro hm
      rcases hM hm with hd | hd
      · simp [doneSuccess, hpc] at hd
      · exact Or.inr hd
    · intro hd
      exact absurd hd.2.1 (by simp)
    · exact hK2
  · -- completed execution: no-op
    rw [hstep, heq]
    dsimp only
    exact ⟨hM, hK1, hK2⟩

/-- Any step preserves the invariant. -/
theorem stepSys_inv (s1 s2 : RunSpec) (sys : Sys) (b : Bool)
    (h : SysInv s1 s2 sys) : SysInv s1 s2 (stepSys s1 s2 sys b) := by
  cases b
  · rw [stepSys_false_eq]
    exact SysInv_swap s2 s1 _ (stepSys_true_inv s2 s1 (swapSys sys) (SysInv_swap s1 s2 sys h))
  · exact stepSys_true_inv s1 s2 sys h

/-- Under the invariant, a step of execution 1 changes the media id only
from `none`: the commit section re-reads the status under the lock and
discards its result if the job is already `POSTED`. -/
theorem stepSys_true_media (s1 s2 : RunSpec) (sys : Sys) (h : SysInv s1 s2 sys)
    (hc : (stepSys s1 s2 sys true).row.instagram_media_id
      ≠ sys.row.instagram_media_id) :
    sys.row.instagram_media_id = none := by
  obtain ⟨hM, hK1, hK2⟩ := h
  have hstep : stepSys s1 s2 sys true
      = ⟨(stepRun s1 sys.row sys.c1).1, (stepRun s1 sys.row sys.c1).2, sys.c2⟩ := rfl
  rw [hstep] at hc
  dsimp only at hc
  rcases stepRun_cases s1 sys.row sys.c1 with
    ⟨hpc, heq⟩ | ⟨hpc, hpr, r, hact, heq⟩ | ⟨hpc, hpr, msg, hact, heq⟩
    | ⟨hpc, hpr, heq⟩ | ⟨hpc0, hpc1, heq⟩
  · rw [heq] at hc
    exact absurd (acquireUpdate_media s1.now sys.row) hc
  · rw [heq] at hc
    by_cases hpo : sys.row.status = .posted
    · rw [commitUpdate_posted _ _ _ hpo] at hc
      exact absurd rfl hc
    · by_cases hs : r.success = true
      · rcases hK1 ⟨hpc, hpr, by rw [hact]; exact hs⟩ with hmn | hpo2
        · exact hmn
        · exact absurd hpo2 hpo
      · rw [commitUpdate_failure _ _ _ hpo hs] at hc
        exact absurd rfl hc
  · rw [heq] at hc
    exact absurd (fail_post_media msg sys.row) hc
  · rw [heq] at hc
    exact absurd rfl hc
  · rw [heq] at hc
    exact absurd rfl hc

/-- Under the invariant, any step changes the media id only from `none`. -/
theorem stepSys_media (s1 s2 : RunSpec) (sys : Sys) (b : Bool)
    (h : SysInv s1 s2 sys)
    (hc : (stepSys s1 s2 sys b).row.instagram_media_id
      ≠ sys.row.instagram_media_id) :
    sys.row.instagram_media_id = none := by
  cases b
  · rw [stepSys_false_eq] at hc
    exact stepSys_true_media s2 s1 (swapSys sys) (SysInv_swap s1 s2 sys h) hc
  · exact stepSys_true_media s1 s2 sys h hc

/-- Every trace starts with its initial state. -/
theorem sysTrace_shape (s1 s2 : RunSpec) :
    ∀ (sched : List Bool) (sys : Sys), ∃ tl, sysTrace s1 s2 sys sched = sys :: tl := by
  intro sched sys
  cases sched with
  | nil => exact ⟨[], rfl⟩
  | cons b bs => exact ⟨sysTrace s1 s2 (stepSys s1 s2 sys b) bs, rfl⟩

/-- C1 part 1, over the whole trace: the media id is written at most once
and, once set, never overwritten. -/
theorem sysTrace_media (s1 s2 : RunSpec) :
    ∀ (sched : List Bool) (sys : Sys), SysInv s1 s2 sys →
      mediaNeverOverwritten (sysTrace s1 s2 sys sched) := by
  intro sched
  induction sched with
  | nil =>
    intro sys _ p hp
    simp [sysTrace, listPairs] at hp
  | cons b bs ih =>
    intro sys h p hp hne
    obtain ⟨tl, htl⟩ := sysTrace_shape s1 s2 bs (stepSys s1 s2 sys b)
    rw [show sysTrace s1 s2 sys (b :: bs)
        = sys :: sysTrace s1 s2 (stepSys s1 s2 sys b) bs from rfl, htl] at hp
    rw [show listPairs (sys :: stepSys s1 s2 sys b :: tl)
        = (sys, stepSys s1 s2 sys b) :: listPairs (stepSys s1 s2 sys b :: tl) from rfl] at hp
    rcases List.mem_cons.mp hp with hp1 | hp2
    · subst hp1
      exact stepSys_media s1 s2 sys b h fun he => hne he.symm
    · rw [← htl] at hp2
      exact ih (stepSys s1 s2 sys b) (stepSys_inv s1 s2 sys b h) p hp2 hne

/-- Program counters never decrease. -/
theorem stepRun_pc_le (spec : RunSpec) (row : PostRow) (st : RunCtl) :
    st.pc ≤ (stepRun spec row st).2.pc := by
  rcases stepRun_cases spec row st with
    ⟨hpc, heq⟩ | ⟨hpc, hpr, r, hact, heq⟩ | ⟨hpc, hpr, msg, hact, heq⟩
    | ⟨hpc, hpr, heq⟩ | ⟨hpc0, hpc1, heq⟩
  · rw [heq, hpc]
    exact Nat.zero_le _
  · rw [heq, hpc]
    exact Nat.le_succ _
  · rw [heq, hpc]
    exact Nat.le_succ _
  · rw [heq, hpc]
    exact Nat.le_succ _
  · rw [heq]

/-- The budget of one execution only shrinks as its counter advances. -/
theorem budgetOf_mono (spec : RunSpec) (st st2 : RunCtl) (hpc : st.pc ≤ st2.pc) :
    budgetOf spec st2 ≤ budgetOf spec st := by
  unfold budgetOf
  by_cases hs : successCommit spec.act = true
  · by_cases h2 : st2.pc ≤ 1
    · rw [if_pos ⟨hs, h2⟩, if_pos ⟨hs, le_trans hpc h2⟩]
    · rw [if_neg (fun hh => h2 hh.2)]
      exact Nat.zero_le _
  · rw [if_neg (fun hh => hs hh.1), if_neg (fun hh => hs hh.1)]

/-- Budgets are at most one per execution. -/
theorem budgetOf_le_one (spec : RunSpec) (c : RunCtl) : budgetOf spec c ≤ 1 := by
  unfold budgetOf
  split <;> omega

/-- A run that will not commit a success contributes no budget. -/
theorem budgetOf_zero (spec : RunSpec) (c : RunCtl)
    (h : ¬ successCommit spec.act = true) : budgetOf spec c = 0 := by
  unfold budgetOf
  rw [if_neg (fun hh => h hh.1)]

/-- Swapping the executions swaps the budget summands. -/
theorem budget_swap (s1 s2 : RunSpec) (sys : Sys) :
    budget s2 s1 (swapSys sys) = budget s1 s2 sys := by
  unfold budget swapSys
  dsimp only
  omega

/-- A step of execution 1 can only shrink the total budget. -/
theorem stepSys_true_budget_le (s1 s2 : RunSpec) (sys : Sys) :
    budget s1 s2 (stepSys s1 s2 sys true) ≤ budget s1 s2 sys := by
  have hstep : stepSys s1 s2 sys true
      = ⟨(stepRun s1 sys.row sys.c1).1, (stepRun s1 sys.row sys.c1).2, sys.c2⟩ := rfl
  rw [hstep]
  unfold budget
  dsimp only
  have hm := budgetOf_mono s1 sys.c1 (stepRun s1 sys.row sys.c1).2
    (stepRun_pc_le s1 sys.row sys.c1)
  omega

/-- Any step can only shrink the total budget. -/
theorem stepSys_budget_le (s1 s2 : RunSpec) (sys : Sys) (b : Bool) :
    budget s1 s2 (stepSys s1 s2 sys b) ≤ budget s1 s2 sys := by
  cases b
  · rw [stepSys_false_eq, budget_swap s2 s1, ← budget_swap s1 s2 sys]
    exact stepSys_true_budget_le s2 s1 (swapSys sys)
  · exact stepSys_true_budget_le s1 s2 sys

/-- An entry into `POSTED` by execution 1 consumes one budget unit: only a
pending successful commit can move the status to `POSTED`. -/
theorem stepSys_true_entry (s1 s2 : RunSpec) (sys : Sys)
    (hpost : (stepSys s1 s2 sys true).row.status = .posted)
    (hpre : ¬ sys.row.status = .posted) :
    budget s1 s2 (stepSys s1 s2 sys true) + 1 ≤ budget s1 s2 sys := by
  have hstep : stepSys s1 s2 sys true
      = ⟨(stepRun s1 sys.row sys.c1).1, (stepRun s1 sys.row sys.c1).2, sys.c2⟩ := rfl
  rw [hstep] at hpost ⊢
  dsimp only at hpost ⊢
  rcases stepRun_cases s1 sys.row sys.c1 with
    ⟨hpc, heq⟩ | ⟨hpc, hpr, r, hact, heq⟩ | ⟨hpc, hpr, msg, hact, heq⟩
    | ⟨hpc, hpr, heq⟩ | ⟨hpc0, hpc1, heq⟩
  · rw [heq] at hpost
    rcases acquireUpdate_status s1.now sys.row with hst | hst
    · rw [hpost] at hst
      exact absurd hst.symm hpre
    · rw [hpost] at hst
      exact absurd hst (by simp)
  · rw [heq] at hpost ⊢
    by_cases hs : r.success = true
    · unfold budget
      dsimp only
      have hb1 : budgetOf s1 sys.c1 = 1 := by
        unfold budgetOf
        rw [if_pos ⟨by rw [hact]; exact hs, by omega⟩]
      have hb2 : budgetOf s1 (⟨2, true⟩ : RunCtl) = 0 := by
        unfold budgetOf
        rw [if_neg (fun hh => by have := hh.2; simp at this)]
      omega
    · by_cases hpo : sys.row.status = .posted
      · exact absurd hpo hpre
      · rw [commitUpdate_failure _ _ _ hpo hs] at hpost
        exact absurd hpost (by simp)
  · rw [heq] at hpost
    exact absurd hpost (by simp [fail_post])
  · rw [heq] at hpost
    exact absurd hpost hpre
  · rw [heq] at hpost
    exact absurd hpost hpre

/-- Any entry into `POSTED` consumes one budget unit. -/
theorem stepSys_entry (s1 s2 : RunSpec) (sys : Sys) (b : Bool)
    (hpost : (stepSys s1 s2 sys b).row.status = .posted)
    (hpre : ¬ sys.row.status = .posted) :
    budget s1 s2 (stepSys s1 s2 sys b) + 1 ≤ budget s1 s2 sys := by
  cases b
  · rw [stepSys_false_eq] at hpost ⊢
    rw [budget_swap s2 s1, ← budget_swap s1 s2 sys]
    exact stepSys_true_entry s2 s1 (swapSys sys) hpost hpre
  · exact stepSys_true_entry s1 s2 sys hpost hpre

/-- The number of `POSTED` entries along a trace is bounded by the budget. -/
theorem postedEntries_le_budget (s1 s2 : RunSpec) :
    ∀ (sched : List Bool) (sys : Sys),
      postedEntries (sysTrace s1 s2 sys sched) ≤ budget s1 s2 sys := by
  intro sched
  induction sched with
  | nil =>
    intro sys
    simp [sysTrace, postedEntries, listPairs]
  | cons b bs ih =>
    intro sys
    obtain ⟨tl, htl⟩ := sysTrace_shape s1 s2 bs (stepSys s1 s2 sys b)
    have htr : sysTrace s1 s2 sys (b :: bs)
        = sys :: stepSys s1 s2 sys b :: tl := by
      rw [show sysTrace s1 s2 sys (b :: bs)
          = sys :: sysTrace s1 s2 (stepSys s1 s2 sys b) bs from rfl, htl]
    have hcount : postedEntries (sysTrace s1 s2 sys (b :: bs))
        = postedEntries (stepSys s1 s2 sys b :: tl)
          + (if (¬ sys.row.status = .posted
                ∧ (stepSys s1 s2 sys b).row.status = .posted) then 1 else 0) := by
      rw [htr]
      unfold postedEntries
      rw [show listPairs (sys :: stepSys s1 s2 sys b :: tl)
          = (sys, stepSys s1 s2 sys b) :: listPairs (stepSys s1 s2 sys b :: tl) from rfl]
      rw [List.countP_cons]
      simp
    have hrest : postedEntries (stepSys s1 s2 sys b :: tl)
        ≤ budget s1 s2 (stepSys s1 s2 sys b) := by
      rw [← htl]
      exact ih (stepSys s1 s2 sys b)
    rw [hcount]
    by_cases hent : (¬ sys.row.status = .posted
        ∧ (stepSys s1 s2 sys b).row.status = .posted)
    · rw [if_pos hent]
      have := stepSys_entry s1 s2 sys b hent.2 hent.1
      omega
    · rw [if_neg hent]
      have := stepSys_budget_le s1 s2 sys b
      omega

/-- If execution 1 will commit successfully, no step of it can leave the
`POSTED` state. -/
theorem stepSys_true_posted_persist (s1 s2 : RunSpec) (sys : Sys)
    (h1 : successCommit s1.act = true) (hp : sys.row.status = .posted) :
    (stepSys s1 s2 sys true).row.status = .posted := by
  have hstep : stepSys s1 s2 sys true
      = ⟨(stepRun s1 sys.row sys.c1).1, (stepRun s1 sys.row sys.c1).2, sys.c2⟩ := rfl
  rw [hstep]
  dsimp only
  rcases stepRun_cases s1 sys.row sys.c1 with
    ⟨hpc, heq⟩ | ⟨hpc, hpr, r, hact, heq⟩ | ⟨hpc, hpr, msg, hact, heq⟩
    | ⟨hpc, hpr, heq⟩ | ⟨hpc0, hpc1, heq⟩
  · rw [heq, acquireUpdate_posted s1.now sys.row hp]
    exact hp
  · rw [heq, commitUpdate_posted _ _ _ hp]
    exact hp
  · rw [hact] at h1
    exact absurd h1 (by simp [successCommit])
  · rw [heq]
    exact hp
  · rw [heq]
    exact hp

/-- When both executions will commit successfully, every step preserves
`POSTED`. -/
theorem stepSys_posted_persist (s1 s2 : RunSpec) (sys : Sys) (b : Bool)
    (h1 : successCommit s1.act = true) (h2 : successCommit s2.act = true)
    (hp : sys.row.status = .posted) :
    (stepSys s1 s2 sys b).row.status = .posted := by
  cases b
  · rw [stepSys_false_eq]
    exact stepSys_true_posted_persist s2 s1 (swapSys sys) h2 hp
  · exact stepSys_true_posted_persist s1 s2 sys h1 hp

/-- When both executions will commit successfully, a trace that starts in
`POSTED` never enters it again. -/
theorem postedEntries_zero_of_posted (s1 s2 : RunSpec)
    (h1 : successCommit s1.act = true) (h2 : successCommit s2.act = true) :
    ∀ (sched : List Bool) (sys : Sys), sys.row.status = .posted →
      postedEntries (sysTrace s1 s2 sys sched) = 0 := by
  intro sched
  induction sched with
  | nil =>
    intro sys _
    simp [sysTrace, postedEntries, listPairs]
  | cons b bs ih =>
    intro sys hp
    obtain ⟨tl, htl⟩ := sysTrace_shape s1 s2 bs (stepSys s1 s2 sys b)
    rw [show sysTrace s1 s2 sys (b :: bs)
        = sys :: sysTrace s1 s2 (stepSys s1 s2 sys b) bs from rfl, htl]
    unfold postedEntries
    rw [show listPairs (sys :: stepSys s1 s2 sys b :: tl)
        = (sys, stepSys s1 s2 sys b) :: listPairs (stepSys s1 s2 sys b :: tl) from rfl]
    rw [List.countP_cons]
    have hz : postedEntries (stepSys s1 s2 sys b :: tl) = 0 := by
      rw [← htl]
      exact ih (stepSys s1 s2 sys b) (stepSys_posted_persist s1 s2 sys b h1 h2 hp)
    unfold postedEntries at hz
    rw [hz]
    simp [hp]

/-- When both executions will commit successfully, `POSTED` is entered at
most once along any trace. -/
theorem postedEntries_le_one_both (s1 s2 : RunSpec)
    (h1 : successCommit s1.act = true) (h2 : successCommit s2.act = true) :
    ∀ (sched : List Bool) (sys : Sys),
      postedEntries (sysTrace s1 s2 sys sched) ≤ 1 := by
  intro sched
  induction sched with
  | nil =>
    intro sys
    simp [sysTrace, postedEntries, listPairs]
  | cons b bs ih =>
    intro sys
    obtain ⟨tl, htl⟩ := sysTrace_shape s1 s2 bs (stepSys s1 s2 sys b)
    rw [show sysTrace s1 s2 sys (b :: bs)
        = sys :: sysTrace s1 s2 (stepSys s1 s2 sys b) bs from rfl, htl]
    unfold postedEntries
    rw [show listPairs (sys :: stepSys s1 s2 sys b :: tl)
        = (sys, stepSys s1 s2 sys b) :: listPairs (stepSys s1 s2 sys b :: tl) from rfl]
    rw [List.countP_cons]
    by_cases hpost : (stepSys s1 s2 sys b).row.status = .posted
    · have hz : postedEntries (sysTrace s1 s2 (stepSys s1 s2 sys b) bs) = 0 :=
        postedEntries_zero_of_posted s1 s2 h1 h2 bs _ hpost
      rw [htl] at hz
      unfold postedEntries at hz
      rw [hz]
      split <;> omega
    · have hle : postedEntries (sysTrace s1 s2 (stepSys s1 s2 sys b) bs) ≤ 1 :=
        ih (stepSys s1 s2 sys b)
      rw [htl] at hle
      unfold postedEntries at hle
      have hbit : ¬ ((fun p => decide (p.1.row.status ≠ PStatus.posted
          ∧ p.2.row.status = PStatus.posted)) (sys, stepSys s1 s2 sys b)) = true := by
        simp
        intro _
        exact hpost
      rw [if_neg hbit]
      omega

/-- C1 part 2: along any trace of the interleaved system, the row enters
the `POSTED` state at most once. -/
theorem postedEntries_le_one (s1 s2 : RunSpec) (sched : List Bool) (sys : Sys) :
    postedEntries (sysTrace s1 s2 sys sched) ≤ 1 := by
  by_cases h1 : successCommit s1.act = true
  · by_cases h2 : successCommit s2.act = true
    · exact postedEntries_le_one_both s1 s2 h1 h2 sched sys
    · have hb := postedEntries_le_budget s1 s2 sched sys
      have hz := budgetOf_zero s2 sys.c2 h2
      have ho := budgetOf_le_one s1 sys.c1
      unfold budget at hb
      omega
  · have hb := postedEntries_le_budget s1 s2 sched sys
    have hz := budgetOf_zero s1 sys.c1 h1
    have ho := budgetOf_le_one s2 sys.c2
    unfold budget at hb
    omega

/-- Micro-step: execution 1 runs its acquire section. -/
theorem stepSys_acq1 (s1 s2 : RunSpec) (row row2 : PostRow) (pr : Bool)
    (c2 : RunCtl) (h : acquireUpdate s1.now row = (row2, pr)) :
    stepSys s1 s2 ⟨row, ⟨0, false⟩, c2⟩ true = ⟨row2, ⟨1, pr⟩, c2⟩ := by
  simp [stepSys, stepRun, h]

/-- Micro-step: execution 2 runs its acquire section. -/
theorem stepSys_acq2 (s1 s2 : RunSpec) (row row2 : PostRow) (pr : Bool)
    (c1 : RunCtl) (h : acquireUpdate s2.now row = (row2, pr)) :
    stepSys s1 s2 ⟨row, c1, ⟨0, false⟩⟩ false = ⟨row2, c1, ⟨1, pr⟩⟩ := by
  simp [stepSys, stepRun, h]

/-- Micro-step: execution 1 runs its commit section. -/
theorem stepSys_com1 (s1 s2 : RunSpec) (row : PostRow) (r : PubReturn)
    (c2 : RunCtl) (h : s1.act = .commit r) :
    stepSys s1 s2 ⟨row, ⟨1, true⟩, c2⟩ true
      = ⟨commitUpdate s1.now r row, ⟨2, true⟩, c2⟩ := by
  simp [stepSys, stepRun, h]

/-- Micro-step: execution 2 runs its commit section. -/
theorem stepSys_com2 (s1 s2 : RunSpec) (row : PostRow) (r : PubReturn)
    (c1 : RunCtl) (h : s2.act = .commit r) :
    stepSys s1 s2 ⟨row, c1, ⟨1, true⟩⟩ false
      = ⟨commitUpdate s2.now r row, c1, ⟨2, true⟩⟩ := by
  simp [stepSys, stepRun, h]

/-- Micro-step: execution 1 aborted at acquire; its final section is a
no-op. -/
theorem stepSys_skip1 (s1 s2 : RunSpec) (row : PostRow) (c2 : RunCtl) :
    stepSys s1 s2 ⟨row, ⟨1, false⟩, c2⟩ true = ⟨row, ⟨2, false⟩, c2⟩ := by
  simp [stepSys, stepRun]

/-- Micro-step: execution 2 aborted at acquire; its final section is a
no-op. -/
theorem stepSys_skip2 (s1 s2 : RunSpec) (row : PostRow) (c1 : RunCtl) :
    stepSys s1 s2 ⟨row, c1, ⟨1, false⟩⟩ false = ⟨row, c1, ⟨2, false⟩⟩ := by
  simp [stepSys, stepRun]

/-- When both racing executions publish successfully, every complete
interleaving converges to a single `POSTED` row carrying the media id of
whichever execution committed first. -/
theorem race_both_success_converge (s1 s2 : RunSpec) (init : PostRow)
    (sched : List Bool) (hmedia : init.instagram_media_id = none)
    (ra rb : PubReturn)
    (hact1 : s1.act = .commit ra) (hs1 : ra.success = true)
    (hact2 : s2.act = .commit rb) (hs2 : rb.success = true)
    (ha : (acquireUpdate s1.now init).2 = true)
    (hb : (acquireUpdate s2.now init).2 = true)
    (hmem : sched ∈ completeScheds) :
    (execSys s1 s2 (initSys init) sched).row.status = .posted
    ∧ ((execSys s1 s2 (initSys init) sched).row.instagram_media_id = ra.media_id
        ∨ (execSys s1 s2 (initSys init) sched).row.instagram_media_id = rb.media_id) := by
  have hP1 := acquireUpdate_proceed_eq s1.now init ha
  have hP2 := acquireUpdate_proceed_eq s2.now init hb
  have hPmed : ({ init with status := .processing } : PostRow).instagram_media_id
      = none := hmedia
  have hAcq1P : acquireUpdate s1.now { init with status := .processing }
      = ({ init with status := .processing }, true) :=
    acquireUpdate_processing _ _ rfl hPmed
  have hAcq2P : acquireUpdate s2.now { init with status := .processing }
      = ({ init with status := .processing }, true) :=
    acquireUpdate_processing _ _ rfl hPmed
  have hQa := commitUpdate_success s1.now ra { init with status := .processing }
    (by simp) hs1
  have hQb := commitUpdate_success s2.now rb { init with status := .processing }
    (by simp) hs2
  have hQaSt : (commitUpdate s1.now ra { init with status := .processing }).status
      = .posted := by rw [hQa]
  have hQbSt : (commitUpdate s2.now rb { init with status := .processing }).status
      = .posted := by rw [hQb]
  have hQaMed : (commitUpdate s1.now ra
      { init with status := .processing }).instagram_media_id = ra.media_id := by
    rw [hQa]
  have hQbMed : (commitUpdate s2.now rb
      { init with status := .processing }).instagram_media_id = rb.media_id := by
    rw [hQb]
  have hAcqQa2 : acquireUpdate s2.now
      (commitUpdate s1.now ra { init with status := .processing })
      = (commitUpdate s1.now ra { init with status := .processing }, false) :=
    acquireUpdate_posted _ _ hQaSt
  have hAcqQb1 : acquireUpdate s1.now
      (commitUpdate s2.now rb { init with status := .processing })
      = (commitUpdate s2.now rb { init with status := .processing }, false) :=
    acquireUpdate_posted _ _ hQbSt
  have hComQa2 : commitUpdate s2.now rb
      (commitUpdate s1.now ra { init with status := .processing })
      = commitUpdate s1.now ra { init with status := .processing } :=
    commitUpdate_posted _ _ _ hQaSt
  have hComQb1 : commitUpdate s1.now ra
      (commitUpdate s2.now rb { init with status := .processing })
      = commitUpdate s2.now rb { init with status := .processing } :=
    commitUpdate_posted _ _ _ hQbSt
  simp only [completeScheds, List.mem_cons, List.not_mem_nil, or_false] at hmem
  rcases hmem with rfl | rfl | rfl | rfl | rfl | rfl
  · rw [show execSys s1 s2 (initSys init) [true, true, false, false]
        = stepSys s1 s2 (stepSys s1 s2 (stepSys s1 s2 (stepSys s1 s2
            ⟨init, ⟨0, false⟩, ⟨0, false⟩⟩ true) true) false) false from rfl]
    rw [stepSys_acq1 s1 s2 init _ true _ hP1]
    rw [stepSys_com1 s1 s2 _ ra _ hact1]
    rw [stepSys_acq2 s1 s2 _ _ false _ hAcqQa2]
    rw [stepSys_skip2 s1 s2 _ _]
    exact ⟨hQaSt, Or.inl hQaMed⟩
  · rw [show execSys s1 s2 (initSys init) [true, false, true, false]
        = stepSys s1 s2 (stepSys s1 s2 (stepSys s1 s2 (stepSys s1 s2
            ⟨init, ⟨0, false⟩, ⟨0, false⟩⟩ true) false) true) false from rfl]
    rw [stepSys_acq1 s1 s2 init _ true _ hP1]
    rw [stepSys_acq2 s1 s2 _ _ true _ hAcq2P]
    rw [stepSys_com1 s1 s2 _ ra _ hact1]
    rw [stepSys_com2 s1 s2 _ rb _ hact2]
    rw [hComQa2]
    exact ⟨hQaSt, Or.inl hQaMed⟩
  · rw [show execSys s1 s2 (initSys init) [true, false, false, true]
        = stepSys s1 s2 (stepSys s1 s2 (stepSys s1 s2 (stepSys s1 s2
            ⟨init, ⟨0, false⟩, ⟨0, false⟩⟩ true) false) false) true from rfl]
    rw [stepSys_acq1 s1 s2 init _ true _ hP1]
    rw [stepSys_acq2 s1 s2 _ _ true _ hAcq2P]
    rw [stepSys_com2 s1 s2 _ rb _ hact2]
    rw [stepSys_com1 s1 s2 _ ra _ hact1]
    rw [hComQb1]
    exact ⟨hQbSt, Or.inr hQbMed⟩
  · rw [show execSys s1 s2 (initSys init) [false, true, true, false]
        = stepSys s1 s2 (stepSys s1 s2 (stepSys s1 s2 (stepSys s1 s2
            ⟨init, ⟨0, false⟩, ⟨0, false⟩⟩ false) true) true) false from rfl]
    rw [stepSys_acq2 s1 s2 init _ true _ hP2]
    rw [stepSys_acq1 s1 s2 _ _ true _ hAcq1P]
    rw [stepSys_com1 s1 s2 _ ra _ hact1]
    rw [stepSys_com2 s1 s2 _ rb _ hact2]
    rw [hComQa2]
    exact ⟨hQaSt, Or.inl hQaMed⟩
  · rw [show execSys s1 s2 (initSys init) [false, true, false, true]
        = stepSys s1 s2 (stepSys s1 s2 (stepSys s1 s2 (stepSys s1 s2
            ⟨init, ⟨0, false⟩, ⟨0, false⟩⟩ false) true) false) true from rfl]
    rw [stepSys_acq2 s1 s2 init _ true _ hP2]
    rw [stepSys_acq1 s1 s2 _ _ true _ hAcq1P]
    rw [stepSys_com2 s1 s2 _ rb _ hact2]
    rw [stepSys_com1 s1 s2 _ ra _ hact1]
    rw [hComQb1]
    exact ⟨hQbSt, Or.inr hQbMed⟩
  · rw [show execSys s1 s2 (initSys init) [false, false, true, true]
        = stepSys s1 s2 (stepSys s1 s2 (stepSys s1 s2 (stepSys s1 s2
            ⟨init, ⟨0, false⟩, ⟨0, false⟩⟩ false) false) true) true from rfl]
    rw [stepSys_acq2 s1 s2 init _ true _ hP2]
    rw [stepSys_com2 s1 s2 _ rb _ hact2]
    rw [stepSys_acq1 s1 s2 _ _ false _ hAcqQb1]
    rw [stepSys_skip1 s1 s2 _ _]
    exact ⟨hQbSt, Or.inr hQbMed⟩

/-- C1: for two (possibly concurrent or duplicate) executions of the task
on the same job — modelled as an arbitrary interleaving of the two locked
sections of each execution, starting from a job with no persisted media
id — the job enters `POSTED` at most once, and the media id is written at
most once and, once set, never overwritten, because the commit section
re-reads the status under the lock and discards its result if the job is
already `POSTED`.  When both executions publish successfully, every
complete interleaving ends `POSTED` with exactly the media id of the first
committer persisted. -/
theorem job_race_single_publish (s1 s2 : RunSpec) (init : PostRow)
    (sched : List Bool) (hmedia : init.instagram_media_id = none) :
    mediaNeverOverwritten (sysTrace s1 s2 (initSys init) sched)
    ∧ postedEntries (sysTrace s1 s2 (initSys init) sched) ≤ 1
    ∧ (∀ (ra rb : PubReturn),
        s1.act = .commit ra → ra.success = true →
        s2.act = .commit rb → rb.success = true →
        (acquireUpdate s1.now init).2 = true →
        (acquireUpdate s2.now init).2 = true →
        sched ∈ completeScheds →
        (execSys s1 s2 (initSys init) sched).row.status = .posted
        ∧ ((execSys s1 s2 (initSys init) sched).row.instagram_media_id = ra.media_id
            ∨ (execSys s1 s2 (initSys init) sched).row.instagram_media_id
                = rb.media_id)) := by
  refine ⟨?_, postedEntries_le_one s1 s2 sched (initSys init), ?_⟩
  · apply sysTrace_media
    refine ⟨fun hm => absurd hmedia hm, ?_, ?_⟩
    · intro hd
      exact absurd hd.1 (by simp [initSys])
    · intro hd
      exact absurd hd.1 (by simp [initSys])
  · intro ra rb hact1 hs1 hact2 hs2 ha hb hmem
    exact race_both_success_converge s1 s2 init sched hmedia
      ra rb hact1 hs1 hact2 hs2 ha hb hmem

/-- Witness for `job_race_single_publish`: two concrete successful
executions racing on a fresh `PROCESSING` job, interleaved
acquire/acquire/commit/commit. -/
theorem job_race_single_publish_witness :
    ((⟨.processing, none, none, none, none, none⟩ : PostRow).instagram_media_id = none)
    ∧ postedEntries (sysTrace ⟨5, FinalAct.commit ⟨true, some "18000", none, 200⟩⟩
        ⟨7, FinalAct.commit ⟨true, some "18001", none, 200⟩⟩
        (initSys ⟨.processing, none, none, none, none, none⟩)
        [true, false, true, false]) ≤ 1
    ∧ ((execSys ⟨5, FinalAct.commit ⟨true, some "18000", none, 200⟩⟩
          ⟨7, FinalAct.commit ⟨true, some "18001", none, 200⟩⟩
          (initSys ⟨.processing, none, none, none, none, none⟩)
          [true, false, true, false]).row.status = .posted
        ∧ ((execSys ⟨5, FinalAct.commit ⟨true, some "18000", none, 200⟩⟩
              ⟨7, FinalAct.commit ⟨true, some "18001", none, 200⟩⟩
              (initSys ⟨.processing, none, none, none, none, none⟩)
              [true, false, true, false]).row.instagram_media_id = some "18000"
            ∨ (execSys ⟨5, FinalAct.commit ⟨true, some "18000", none, 200⟩⟩
                ⟨7, FinalAct.commit ⟨true, some "18001", none, 200⟩⟩
                (initSys ⟨.processing, none, none, none, none, none⟩)
                [true, false, true, false]).row.instagram_media_id = some "18001")) :=
  ⟨rfl,
    (job_race_single_publish _ _ _ _ rfl).2.1,
    (job_race_single_publish _ _ _ _ rfl).2.2 _ _ rfl rfl rfl rfl
      (by decide) (by decide) (by decide)⟩
